import Mathlib

/-!
# quicly ring buffer (`lib/ringbuf.c`)

A shallow embedding of the growable circular byte buffer of quicly and the
verification of its contract.

Conventions of the embedding

* `size_t` values are natural numbers.  Every subtraction the C code performs
  on a well-formed buffer has a non-negative result, so truncated subtraction
  on `Nat` agrees with the C code there.  Overflow of `size_t` is not modelled
  in these definitions; the functions whose arithmetic can wrap are defined a
  second time with the arithmetic of a 64-bit `size_t` (names ending in `64`).
* A block of memory is a `List Nat` (one entry per byte); `buf->data` is the
  list of the `capacity` bytes of the allocation.
* `malloc`/`realloc` take their outcome as an argument (`Alloc`): either the
  call fails, or it succeeds and the bytes C leaves indeterminate are given
  by an arbitrary function of the address.
* A function that can abort on an `assert`, or whose loop may fail to
  terminate, returns an `Option`; `none` means that no result is produced.
-/

namespace Quicly

/-- The struct `quicly_ringbuf_t` of `include/quicly/ringbuf.h`. -/
structure quicly_ringbuf_t where
  data : List Nat
  capacity : Nat
  start_off : Nat
  end_off : Nat
deriving DecidableEq

/-- Outcome of one call of the allocator: `fail` is a `NULL` result, `ok fresh`
a successful call, where `fresh a` is the indeterminate byte found at offset
`a` of the returned block when C does not define it. -/
inductive Alloc where
  | fail : Alloc
  | ok (fresh : Nat → Nat) : Alloc

/-- C `memcpy (dst + d, src + s, n)`, as the resulting contents of the block
`dst`.  `memmove` inside one block is `memcpy dst d dst s n`: the source bytes
are read from the block as it is before the call. -/
def memcpy (dst : List Nat) (d : Nat) (src : List Nat) (s n : Nat) : List Nat :=
  dst.take d ++ ((src.drop s).take n ++ dst.drop (d + n))

/-- C `realloc (data, new_size)`: on success the old bytes are kept (up to
`new_size`) and the added bytes are indeterminate. -/
def realloc (data : List Nat) (new_size : Nat) : Alloc → Option (List Nat)
  | Alloc.fail => none
  | Alloc.ok fresh =>
    some (data.take new_size ++ (List.range' data.length (new_size - data.length)).map fresh)

/-- C `malloc (size)`. -/
def malloc (size : Nat) (a : Alloc) : Option (List Nat) :=
  realloc [] size a

/-- `quicly_ringbuf_init`: returns the return code and the struct after the
call (`buf` is the struct before the call; `NULL` is the empty block). -/
def quicly_ringbuf_init (buf : quicly_ringbuf_t) (start_size : Nat) (a : Alloc) :
    Int × quicly_ringbuf_t :=
  match malloc start_size a with
  | none => (-1, { buf with data := [] })
  | some d => (0, { data := d, capacity := start_size, start_off := 0, end_off := 0 })

/-- `quicly_ringbuf_available`. -/
def quicly_ringbuf_available (buf : quicly_ringbuf_t) : Nat :=
  if buf.end_off < buf.start_off then
    buf.start_off - buf.end_off - 1
  else
    buf.capacity - buf.end_off + buf.start_off - 1

/-- `quicly_ringbuf_used`. -/
def quicly_ringbuf_used (buf : quicly_ringbuf_t) : Nat :=
  if buf.end_off ≥ buf.start_off then
    buf.end_off - buf.start_off
  else
    buf.capacity - buf.start_off + buf.end_off

/-- `quicly_ringbuf_used_one_block`. -/
def quicly_ringbuf_used_one_block (buf : quicly_ringbuf_t) : Nat :=
  if buf.end_off ≥ buf.start_off then
    buf.end_off - buf.start_off
  else
    buf.capacity - buf.start_off

/-- The loop `while (new_size - old_size < min_grow_amount) new_size *= 2;` of
`quicly_ringbuf_grow`, run for at most `fuel` evaluations of its condition.
`none`: the loop has not left within `fuel` evaluations.  The doubling is the
one of natural numbers: it is the loop of the C code as long as `new_size`
stays below `2 ^ 64` (`grow_new_size64_eq`); `grow_new_size64` is the loop with
the doubling of a 64-bit `size_t`. -/
def grow_new_size : Nat → Nat → Nat → Nat → Option Nat
  | 0, _, _, _ => none
  | fuel + 1, old_size, new_size, min_grow_amount =>
    if new_size - old_size < min_grow_amount then
      grow_new_size fuel old_size (new_size * 2) min_grow_amount
    else
      some new_size

/-- `quicly_ringbuf_grow`: `none` when the doubling loop does not terminate,
otherwise the return code and the struct after the call.  The loop is given
`min_grow_amount + 1` evaluations of its condition, which is enough whenever
it terminates at all (`grow_new_size_fuel_adequate`).  On natural numbers; this
is the C function wherever `capacity` and `min_grow_amount` are at most
`2 ^ 62` (`grow64_eq_grow`), and `quicly_ringbuf_grow64` is the function with
the arithmetic of a 64-bit `size_t`. -/
def quicly_ringbuf_grow (buf : quicly_ringbuf_t) (min_grow_amount : Nat) (a : Alloc) :
    Option (Int × quicly_ringbuf_t) :=
  let old_size := buf.capacity
  match grow_new_size (min_grow_amount + 1) old_size (2 * old_size) min_grow_amount with
  | none => none
  | some new_size =>
    match realloc buf.data new_size a with
    | none => some (-1, buf)
    | some data =>
      let buf := { buf with data := data, capacity := new_size }
      if buf.end_off < buf.start_off then
        let move_size := old_size - buf.start_off
        let data := memcpy buf.data (buf.capacity - move_size) buf.data buf.start_off move_size
        some (0, { buf with data := data, start_off := buf.start_off + (new_size - old_size) })
      else
        some (0, buf)

/-- `quicly_ringbuf_shift`. -/
def quicly_ringbuf_shift (buf : quicly_ringbuf_t) (amount : Nat) : quicly_ringbuf_t :=
  let buf := { buf with start_off := buf.start_off + amount }
  if buf.start_off ≥ buf.capacity then
    { buf with start_off := buf.start_off - buf.capacity }
  else
    buf

/-- What `quicly_ringbuf_emit` hands back: its return code, the block `dst`
after the call, and the values stored through `len` and `wrote_all`. -/
structure emit_result where
  ret : Int
  dst : List Nat
  len : Nat
  wrote_all : Int
deriving DecidableEq

/-- `quicly_ringbuf_emit`: `none` when `assert(off <= data_available)` fails.
The sums are those of natural numbers: this is the C function wherever
`off + len < 2 ^ 64` (`emit64_eq_emit`); `quicly_ringbuf_emit64` is the function
with the sums of a 64-bit `size_t`. -/
def quicly_ringbuf_emit (buf : quicly_ringbuf_t) (off : Nat) (dst : List Nat) (len : Nat) :
    Option emit_result :=
  let data_available := quicly_ringbuf_used buf
  if off ≤ data_available then
    let lw : Nat × Int :=
      if off + len < data_available then (len, 0) else (data_available - off, 1)
    let len := lw.1
    let wrote_all := lw.2
    let cpy_start_off := buf.start_off + off
    let cpy_end_off := cpy_start_off + len
    let cpy_start_off :=
      if cpy_start_off ≥ buf.capacity then cpy_start_off - buf.capacity else cpy_start_off
    let cpy_end_off :=
      if cpy_end_off ≥ buf.capacity then cpy_end_off - buf.capacity else cpy_end_off
    if cpy_end_off < cpy_start_off then
      let split := buf.capacity - cpy_start_off
      let dst := memcpy dst 0 buf.data cpy_start_off split
      let dst := memcpy dst split buf.data 0 cpy_end_off
      some { ret := 0, dst := dst, len := len, wrote_all := wrote_all }
    else
      some { ret := 0, dst := memcpy dst 0 buf.data cpy_start_off len, len := len,
             wrote_all := wrote_all }
  else
    none

/-- `quicly_ringbuf_push (buf, src, len)` with `len = src.length`. -/
def quicly_ringbuf_push (buf : quicly_ringbuf_t) (src : List Nat) (a : Alloc) :
    Option (Int × quicly_ringbuf_t) :=
  let len := src.length
  let space_available := quicly_ringbuf_available buf
  let grown : Option (Int × quicly_ringbuf_t) :=
    if space_available < len then quicly_ringbuf_grow buf (len - space_available) a
    else some (0, buf)
  match grown with
  | none => none
  | some (ret, buf) =>
    if ret ≠ 0 then
      some (ret, buf)
    else
      let cpy_start_off := buf.end_off
      let cpy_end_off := cpy_start_off + len
      let cpy_end_off :=
        if cpy_end_off ≥ buf.capacity then cpy_end_off - buf.capacity else cpy_end_off
      if cpy_end_off < cpy_start_off then
        let split := buf.capacity - cpy_start_off
        let data := memcpy buf.data cpy_start_off src 0 split
        let data := memcpy data 0 src split cpy_end_off
        some (0, { buf with data := data, end_off := cpy_end_off })
      else
        some (0, { buf with data := memcpy buf.data cpy_start_off src 0 len,
                            end_off := cpy_end_off })

/-- `quicly_ringbuf_set (buf, off, src, len)` with `len = src.length`.  The sums
are those of natural numbers: this is the C function wherever `capacity` and
`off + len + 1` are at most `2 ^ 62` (`set64_eq_set`); `quicly_ringbuf_set64` is
the function with the sums of a 64-bit `size_t`. -/
def quicly_ringbuf_set (buf : quicly_ringbuf_t) (off : Nat) (src : List Nat) (a : Alloc) :
    Option (Int × quicly_ringbuf_t) :=
  let len := src.length
  let grown : Option (Int × quicly_ringbuf_t) :=
    if off + len + 1 > buf.capacity then
      quicly_ringbuf_grow buf (off + len + 1 - buf.capacity) a
    else some (0, buf)
  match grown with
  | none => none
  | some (ret, buf) =>
    if ret ≠ 0 then
      some (ret, buf)
    else
      let cpy_start_off := buf.start_off + off
      let cpy_end_off := cpy_start_off + len
      let cpy_start_off :=
        if cpy_start_off ≥ buf.capacity then cpy_start_off - buf.capacity else cpy_start_off
      let cpy_end_off :=
        if cpy_end_off ≥ buf.capacity then cpy_end_off - buf.capacity else cpy_end_off
      let data :=
        if cpy_end_off < cpy_start_off then
          let split := buf.capacity - cpy_start_off
          let data := memcpy buf.data cpy_start_off src 0 split
          memcpy data 0 src split cpy_end_off
        else
          memcpy buf.data cpy_start_off src 0 len
      let buf := { buf with data := data }
      if off + len > quicly_ringbuf_used buf then
        some (0, { buf with end_off := cpy_end_off })
      else
        some (0, buf)

/-- Well-formed buffer: `data` is a block of `capacity >= 1` bytes and both
cursors lie in `[0, capacity)`. -/
def WellFormed (buf : quicly_ringbuf_t) : Prop :=
  buf.data.length = buf.capacity ∧ 1 ≤ buf.capacity ∧
    buf.start_off < buf.capacity ∧ buf.end_off < buf.capacity

instance (buf : quicly_ringbuf_t) : Decidable (WellFormed buf) := by
  unfold WellFormed; infer_instance

/-- The logical byte at position `i` (counted from the front): the byte at
`data[(start_off + i) mod capacity]`. -/
def logical_byte (buf : quicly_ringbuf_t) (i : Nat) : Option Nat :=
  buf.data[(buf.start_off + i) % buf.capacity]?

/-- Reduction of an offset below `2 * capacity` into `[0, capacity)`: the statement
`if (x >= buf->capacity) x -= buf->capacity;` of the source. -/
def wrap_once (x c : Nat) : Nat := if x ≥ c then x - c else x

/-- The copy into the ring that `quicly_ringbuf_push` and `quicly_ringbuf_set` perform
(two `memcpy` when the written range crosses the physical end), as a function of the
copy offsets; the lemmas `push_nogrow_eq` and `set_nogrow_eq` show it is what the two
functions compute. -/
def ring_write (data : List Nat) (c cs ce : Nat) (src : List Nat) : List Nat :=
  if ce < cs then memcpy (memcpy data cs src 0 (c - cs)) 0 src (c - cs) ce
  else memcpy data cs src 0 src.length

/-- The copy out of the ring that `quicly_ringbuf_emit` performs, as a function of the
copy offsets; `emit_eq` shows it is what the function computes. -/
def ring_read (dst data : List Nat) (c cs ce n : Nat) : List Nat :=
  if ce < cs then memcpy (memcpy dst 0 data cs (c - cs)) (c - cs) data 0 ce
  else memcpy dst 0 data cs n

/-- One call made on a ring buffer by a client that only appends and trims:
`quicly_ringbuf_push (buf, src, src.length)`, with the outcome `a` of the allocation a
growth would make, or `quicly_ringbuf_shift (buf, amount)`. -/
inductive Op where
  | push (src : List Nat) (a : Alloc) : Op
  | shift (amount : Nat) : Op

/-- Runs a sequence of calls from the state `buf`.  `none` as soon as a push does not
return 0 (its growth failed, or it does not return at all) or a shift asks for more than
`quicly_ringbuf_used` at that moment. -/
def run : quicly_ringbuf_t → List Op → Option quicly_ringbuf_t
  | buf, [] => some buf
  | buf, Op.push src a :: ops =>
    match quicly_ringbuf_push buf src a with
    | none => none
    | some (ret, buf') => if ret = 0 then run buf' ops else none
  | buf, Op.shift amount :: ops =>
    if amount ≤ quicly_ringbuf_used buf then run (quicly_ringbuf_shift buf amount) ops
    else none

/-- All bytes pushed by a sequence of calls, in order. -/
def pushed_bytes : List Op → List Nat
  | [] => []
  | Op.push src _ :: ops => src ++ pushed_bytes ops
  | Op.shift _ :: ops => pushed_bytes ops

/-- Total number of bytes shifted by a sequence of calls. -/
def shifted_total : List Op → Nat
  | [] => 0
  | Op.push _ _ :: ops => shifted_total ops
  | Op.shift amount :: ops => amount + shifted_total ops

/-- The FIFO the specification describes: the concatenation of all pushed byte
sequences, without the prefix that has been shifted away. -/
def fifo_spec (ops : List Op) : List Nat :=
  (pushed_bytes ops).drop (shifted_total ops)

/-- Every allocation that a push of the sequence may ask for succeeds. -/
def growth_succeeds : List Op → Prop
  | [] => True
  | Op.push _ a :: ops => a ≠ Alloc.fail ∧ growth_succeeds ops
  | Op.shift _ :: ops => growth_succeeds ops

/-- No shift of the sequence asks for more bytes than have been pushed and not yet
shifted, `u` being that number before the sequence. -/
def shifts_within : Nat → List Op → Prop
  | _, [] => True
  | u, Op.push src _ :: ops => shifts_within (u + src.length) ops
  | u, Op.shift amount :: ops => amount ≤ u ∧ shifts_within (u - amount) ops

/-- The stored bytes of `b` are the list `q`: the representation invariant of the FIFO
refinement. -/
def Repr (b : quicly_ringbuf_t) (q : List Nat) : Prop :=
  WellFormed b ∧ quicly_ringbuf_used b = q.length ∧ ∀ i, i < q.length → logical_byte b i = q[i]?

/-! ## The ring buffer defined inline in `include/quicly/streambuf.h`

`lib/streambuf.c` and `t/ringbuf.c` include `quicly/streambuf.h` and so are compiled against
these `static inline` functions, which differ from the functions of `lib/ringbuf.c`. -/

namespace streambuf_h

/-- `quicly_ringbuf_init` of `include/quicly/streambuf.h`. -/
def quicly_ringbuf_init (buf : quicly_ringbuf_t) (start_size : Nat) (a : Alloc) :
    Int × quicly_ringbuf_t :=
  match malloc start_size a with
  | none => (-1, { buf with data := [] })
  | some d => (0, { data := d, capacity := start_size, start_off := 0, end_off := 0 })

/-- `quicly_ringbuf_available` of `include/quicly/streambuf.h`. -/
def quicly_ringbuf_available (buf : quicly_ringbuf_t) : Nat :=
  if buf.end_off < buf.start_off then
    buf.start_off - buf.end_off
  else
    buf.capacity - buf.end_off + buf.start_off

/-- `quicly_ringbuf_used` of `include/quicly/streambuf.h`. -/
def quicly_ringbuf_used (buf : quicly_ringbuf_t) : Nat :=
  if buf.end_off > buf.start_off then
    buf.end_off - buf.start_off
  else
    buf.capacity - buf.start_off + buf.end_off

/-- `quicly_ringbuf_used_one_block` of `include/quicly/streambuf.h`. -/
def quicly_ringbuf_used_one_block (buf : quicly_ringbuf_t) : Nat :=
  if buf.end_off > buf.start_off then
    buf.end_off - buf.start_off
  else
    buf.capacity - buf.start_off

/-- `quicly_ringbuf_grow` of `include/quicly/streambuf.h`: the same doubling loop and
reallocation as in `lib/ringbuf.c`; the tail is moved when `end_off < start_off`, and
`start_off` is not changed. -/
def quicly_ringbuf_grow (buf : quicly_ringbuf_t) (min_grow_amount : Nat) (a : Alloc) :
    Option (Int × quicly_ringbuf_t) :=
  let old_size := buf.capacity
  match grow_new_size (min_grow_amount + 1) old_size (2 * old_size) min_grow_amount with
  | none => none
  | some new_size =>
    match realloc buf.data new_size a with
    | none => some (-1, buf)
    | some data =>
      let buf := { buf with data := data, capacity := new_size }
      if buf.end_off < buf.start_off then
        let move_size := old_size - buf.start_off
        let data := memcpy buf.data (buf.capacity - move_size) buf.data buf.start_off move_size
        some (0, { buf with data := data })
      else
        some (0, buf)

/-- `quicly_ringbuf_shift` of `include/quicly/streambuf.h`. -/
def quicly_ringbuf_shift (buf : quicly_ringbuf_t) (amount : Nat) : quicly_ringbuf_t :=
  let buf := { buf with start_off := buf.start_off + amount }
  if buf.start_off ≥ buf.capacity then
    { buf with start_off := buf.start_off - buf.capacity }
  else
    buf

/-- `quicly_ringbuf_emit` of `include/quicly/streambuf.h`: `none` when
`assert(off < data_available)` fails. -/
def quicly_ringbuf_emit (buf : quicly_ringbuf_t) (off : Nat) (dst : List Nat) (len : Nat) :
    Option emit_result :=
  let data_available := quicly_ringbuf_used buf
  if off < data_available then
    let lw : Nat × Int :=
      if off + len < data_available then (len, 0) else (data_available - off, 1)
    let len := lw.1
    let wrote_all := lw.2
    let cpy_start_off := buf.start_off + off
    let cpy_end_off := cpy_start_off + len
    let cpy_start_off :=
      if cpy_start_off ≥ buf.capacity then cpy_start_off - buf.capacity else cpy_start_off
    let cpy_end_off :=
      if cpy_end_off ≥ buf.capacity then cpy_end_off - buf.capacity else cpy_end_off
    if cpy_end_off < cpy_start_off then
      let split := buf.capacity - cpy_start_off
      let dst := memcpy dst 0 buf.data cpy_start_off split
      let dst := memcpy dst split buf.data 0 cpy_end_off
      some { ret := 0, dst := dst, len := len, wrote_all := wrote_all }
    else
      some { ret := 0, dst := memcpy dst 0 buf.data cpy_start_off len, len := len,
             wrote_all := wrote_all }
  else
    none

/-- `quicly_ringbuf_push (buf, src, len)` of `include/quicly/streambuf.h`, with
`len = src.length`.  The function copies and returns; it has no assignment to `end_off`. -/
def quicly_ringbuf_push (buf : quicly_ringbuf_t) (src : List Nat) (a : Alloc) :
    Option (Int × quicly_ringbuf_t) :=
  let len := src.length
  let space_available := quicly_ringbuf_available buf
  let grown : Option (Int × quicly_ringbuf_t) :=
    if space_available < len then quicly_ringbuf_grow buf (len - space_available) a
    else some (0, buf)
  match grown with
  | none => none
  | some (ret, buf) =>
    if ret ≠ 0 then
      some (ret, buf)
    else
      let cpy_start_off := buf.end_off
      let cpy_end_off := cpy_start_off + len
      let cpy_end_off :=
        if cpy_end_off ≥ buf.capacity then cpy_end_off - buf.capacity else cpy_end_off
      if cpy_end_off < cpy_start_off then
        let split := buf.capacity - cpy_start_off
        let data := memcpy buf.data cpy_start_off src 0 split
        let data := memcpy data 0 src split cpy_end_off
        some (0, { buf with data := data })
      else
        some (0, { buf with data := memcpy buf.data cpy_start_off src 0 len })

/-- `quicly_ringbuf_set (buf, off, src, len)` of `include/quicly/streambuf.h`, with
`len = src.length`. -/
def quicly_ringbuf_set (buf : quicly_ringbuf_t) (off : Nat) (src : List Nat) (a : Alloc) :
    Option (Int × quicly_ringbuf_t) :=
  let len := src.length
  let grown : Option (Int × quicly_ringbuf_t) :=
    if off + len > buf.capacity then
      quicly_ringbuf_grow buf (off + len - buf.capacity) a
    else some (0, buf)
  match grown with
  | none => none
  | some (ret, buf) =>
    if ret ≠ 0 then
      some (ret, buf)
    else
      let cpy_start_off := buf.start_off + off
      let cpy_end_off := cpy_start_off + len
      let cpy_start_off :=
        if cpy_start_off ≥ buf.capacity then cpy_start_off - buf.capacity else cpy_start_off
      let cpy_end_off :=
        if cpy_end_off ≥ buf.capacity then cpy_end_off - buf.capacity else cpy_end_off
      let data :=
        if cpy_end_off < cpy_start_off then
          let split := buf.capacity - cpy_start_off
          let data := memcpy buf.data cpy_start_off src 0 split
          memcpy data 0 src split cpy_end_off
        else
          memcpy buf.data cpy_start_off src 0 len
      let buf := { buf with data := data }
      if off + len > quicly_ringbuf_used buf then
        some (0, { buf with end_off := cpy_end_off })
      else
        some (0, buf)

end streambuf_h

/-! ## The stream buffer of `lib/streambuf.c`

The functions take the `quicly_streambuf_t` that `stream->data` points to.  What they use of
the rest of `quicly_stream_t` and of the engine (declared in `quicly.h`, which is not among the
sources) is an argument: the flag `stream->sendstate.is_open`, and the return code of the engine
call `quicly_stream_sync_sendbuf`, a function of the engine that does not access the stream
buffer.  The field `max_stream_data` (`uint64_t`) is a natural number; the bytes that may
follow the struct in its allocation are not represented, no function of the file reads them. -/

/-- The member `egress` of `quicly_streambuf_t`. -/
structure quicly_streambuf_egress_t where
  buf : quicly_ringbuf_t
  max_stream_data : Nat
deriving DecidableEq

/-- The struct `quicly_streambuf_t` of `include/quicly/streambuf.h`. -/
structure quicly_streambuf_t where
  egress : quicly_streambuf_egress_t
  ingress : quicly_ringbuf_t
deriving DecidableEq

/-- `quicly_streambuf_create (stream, sz)`.  `stream_data` is `stream->data` before the call
(`none` is `NULL`), `sizeof_sbuf` is `sizeof(quicly_streambuf_t)`, `PTLS_ERROR_NO_MEMORY` the
constant of `picotls.h`; `a_sbuf` is the outcome of `malloc(sz)` (`none`: `NULL`, `some s`: a
struct with the indeterminate contents `s`), `a_egress` and `a_ingress` the outcomes of the two
allocations of `quicly_ringbuf_init`.  The result is `none` when an `assert` fails, otherwise
the return code and `stream->data` after the call. -/
def quicly_streambuf_create (stream_data : Option quicly_streambuf_t) (sz sizeof_sbuf : Nat)
    (PTLS_ERROR_NO_MEMORY : Int) (a_sbuf : Option quicly_streambuf_t)
    (a_egress a_ingress : Alloc) : Option (Int × Option quicly_streambuf_t) :=
  if sz ≥ sizeof_sbuf then
    match stream_data with
    | some _ => none
    | none =>
      match a_sbuf with
      | none => some (PTLS_ERROR_NO_MEMORY, none)
      | some sbuf =>
        let egress_buf := (streambuf_h.quicly_ringbuf_init sbuf.egress.buf 1024 a_egress).2
        let ingress := (streambuf_h.quicly_ringbuf_init sbuf.ingress 1024 a_ingress).2
        some (0, some { egress := { buf := egress_buf, max_stream_data := 0 },
                        ingress := ingress })
  else
    none

/-- `quicly_streambuf_egress_emit`: `none` when the `assert` of the ring buffer fails. -/
def quicly_streambuf_egress_emit (sbuf : quicly_streambuf_t) (off : Nat) (dst : List Nat)
    (len : Nat) : Option emit_result :=
  match streambuf_h.quicly_ringbuf_emit sbuf.egress.buf off dst len with
  | none => none
  | some r => some { r with ret := 0 }

/-- `quicly_streambuf_egress_write (stream, src, len)` with `len = src.length`: `none` when
`assert(stream->sendstate.is_open)` fails or the push does not return, otherwise the return
code and the stream buffer after the call.  `a` is the outcome of the allocation a growth would
make, `sync_ret` the return code of `quicly_stream_sync_sendbuf (stream, 1)`. -/
def quicly_streambuf_egress_write (is_open : Bool) (sbuf : quicly_streambuf_t)
    (src : List Nat) (a : Alloc) (sync_ret : Int) : Option (Int × quicly_streambuf_t) :=
  if is_open then
    match streambuf_h.quicly_ringbuf_push sbuf.egress.buf src a with
    | none => none
    | some (_, buf) =>
      let egress : quicly_streambuf_egress_t :=
        { buf := buf, max_stream_data := sbuf.egress.max_stream_data + src.length }
      let sbuf := { sbuf with egress := egress }
      if sync_ret ≠ 0 then
        some (sync_ret, sbuf)
      else
        some (0, sbuf)
  else
    none

/-- `quicly_streambuf_ingress_shift`. -/
def quicly_streambuf_ingress_shift (sbuf : quicly_streambuf_t) (delta : Nat) :
    quicly_streambuf_t :=
  { sbuf with ingress := streambuf_h.quicly_ringbuf_shift sbuf.ingress delta }

/-- `quicly_streambuf_ingress_receive (stream, off, src, len)` with `len = src.length`:
`none` when the set does not return, otherwise the return code and the stream buffer after
the call. -/
def quicly_streambuf_ingress_receive (sbuf : quicly_streambuf_t) (off : Nat) (src : List Nat)
    (a : Alloc) : Option (Int × quicly_streambuf_t) :=
  if src.length ≠ 0 then
    match streambuf_h.quicly_ringbuf_set sbuf.ingress off src a with
    | none => none
    | some (ret, ingress) => some (ret, { sbuf with ingress := ingress })
  else
    some (0, sbuf)

/-- The `ptls_iovec_t` that `quicly_streambuf_ingress_get` builds with `ptls_iovec_init`:
`base` is the offset of the first byte of the view inside the storage `ingress.data` (the
pointer of the view is `ingress.data + base`), `len` its length. -/
structure ptls_iovec_t where
  base : Nat
  len : Nat
deriving DecidableEq

/-- `quicly_streambuf_ingress_get`.  What the function reads of `stream->recvstate` (declared
in `quicly.h`, which is not among the sources) is an argument: `transfer_complete` is the result
of `quicly_recvstate_transfer_complete (&stream->recvstate)`, `data_off` is
`stream->recvstate.data_off` and `ranges0_end` is `stream->recvstate.received.ranges[0].end`.
The result is the view and the stream buffer after the call. -/
def quicly_streambuf_ingress_get (sbuf : quicly_streambuf_t) (transfer_complete : Bool)
    (data_off ranges0_end : Nat) : ptls_iovec_t × quicly_streambuf_t :=
  let avail :=
    if transfer_complete then
      streambuf_h.quicly_ringbuf_used_one_block sbuf.ingress
    else if data_off < ranges0_end then
      ranges0_end - data_off
    else
      0
  ({ base := sbuf.ingress.start_off, len := avail }, sbuf)

/-! ## `lib/ringbuf.c` with the arithmetic of a 64-bit `size_t`

The definitions above compute on natural numbers, which is what the C code computes as long as
no sum, product or difference leaves `[0, 2 ^ 64)`.  The three functions that take a requested
length, a growth amount or an offset which no object in memory bounds, `quicly_ringbuf_emit`,
`quicly_ringbuf_grow` and `quicly_ringbuf_set`, are given here a second time, every operation of
the body being the one of a 64-bit `size_t`.  The lemmas `emit64_eq_emit`, `grow64_eq_grow` and
`set64_eq_set` show where the two versions agree. -/

/-- Addition of two `size_t` values on a 64-bit target. -/
def add64 (x y : Nat) : Nat := (x + y) % 2 ^ 64

/-- Subtraction of two `size_t` values on a 64-bit target. -/
def sub64 (x y : Nat) : Nat := (x + 2 ^ 64 - y) % 2 ^ 64

/-- `quicly_ringbuf_emit` of `lib/ringbuf.c` where every addition and subtraction of the
function body is the one of a 64-bit `size_t`; the arguments and the fields of the struct are
meant to be below `2 ^ 64`.  (`quicly_ringbuf_used` is taken as it is: on a buffer with
`start_off < capacity`, `end_off < capacity < 2 ^ 64` none of its operations wraps.) -/
def quicly_ringbuf_emit64 (buf : quicly_ringbuf_t) (off : Nat) (dst : List Nat) (len : Nat) :
    Option emit_result :=
  let data_available := quicly_ringbuf_used buf
  if off ≤ data_available then
    let lw : Nat × Int :=
      if add64 off len < data_available then (len, 0) else (sub64 data_available off, 1)
    let len := lw.1
    let wrote_all := lw.2
    let cpy_start_off := add64 buf.start_off off
    let cpy_end_off := add64 cpy_start_off len
    let cpy_start_off :=
      if cpy_start_off ≥ buf.capacity then sub64 cpy_start_off buf.capacity else cpy_start_off
    let cpy_end_off :=
      if cpy_end_off ≥ buf.capacity then sub64 cpy_end_off buf.capacity else cpy_end_off
    if cpy_end_off < cpy_start_off then
      let split := sub64 buf.capacity cpy_start_off
      let dst := memcpy dst 0 buf.data cpy_start_off split
      let dst := memcpy dst split buf.data 0 cpy_end_off
      some { ret := 0, dst := dst, len := len, wrote_all := wrote_all }
    else
      some { ret := 0, dst := memcpy dst 0 buf.data cpy_start_off len, len := len,
             wrote_all := wrote_all }
  else
    none

/-- Multiplication of two `size_t` values on a 64-bit target. -/
def mul64 (x y : Nat) : Nat := (x * y) % 2 ^ 64

/-- Outcome of the call `realloc (buf->data, new_size)` of `quicly_ringbuf_grow`.  `fail` and
`ok fresh` are the outcomes of `Alloc`: `NULL` with the old block untouched, and a new block.
`released` is the third outcome C allows, for a request of 0 bytes only: `NULL` is returned and
the old block has been deallocated (the GNU C library treats `realloc (p, 0)` as `free (p)`).
For a request of 0 bytes `ok fresh` is the other behaviour C allows: a block of no bytes. -/
inductive Realloc where
  | fail : Realloc
  | released : Realloc
  | ok (fresh : Nat → Nat) : Realloc

/-- The outcome of `Alloc` as an outcome of `Realloc`. -/
def realloc_outcome : Alloc → Realloc
  | Alloc.fail => Realloc.fail
  | Alloc.ok fresh => Realloc.ok fresh

/-- C `realloc (data, new_size)` with the outcomes of `Realloc`: the pointer returned (`none` is
`NULL`, otherwise the new block), and the bytes the old block holds after a `NULL` return: its
contents, or no byte when the call has released it. -/
def realloc64 (data : List Nat) (new_size : Nat) : Realloc → Option (List Nat) × List Nat
  | Realloc.fail => (none, data)
  | Realloc.released => if new_size = 0 then (none, []) else (none, data)
  | Realloc.ok fresh =>
    (some (data.take new_size ++ (List.range' data.length (new_size - data.length)).map fresh), [])

/-- `quicly_ringbuf_used` with the arithmetic of a 64-bit `size_t`. -/
def quicly_ringbuf_used64 (buf : quicly_ringbuf_t) : Nat :=
  if buf.end_off ≥ buf.start_off then
    sub64 buf.end_off buf.start_off
  else
    add64 (sub64 buf.capacity buf.start_off) buf.end_off

/-- The loop `while (new_size - old_size < min_grow_amount) new_size *= 2;` of
`quicly_ringbuf_grow` with the arithmetic of a 64-bit `size_t`, run for at most `fuel`
evaluations of its condition.  `none`: the loop has not left within `fuel` evaluations. -/
def grow_new_size64 : Nat → Nat → Nat → Nat → Option Nat
  | 0, _, _, _ => none
  | fuel + 1, old_size, new_size, min_grow_amount =>
    if sub64 new_size old_size < min_grow_amount then
      grow_new_size64 fuel old_size (mul64 new_size 2) min_grow_amount
    else
      some new_size

/-- `quicly_ringbuf_grow` with the arithmetic of a 64-bit `size_t`: `none` when the doubling loop
does not terminate, otherwise the return code and the struct after the call.  The loop is given
64 evaluations of its condition: at the 64th at the latest `new_size` is 0, and it stays 0, so
this is enough whenever the loop terminates at all (`grow_new_size64_fuel_adequate`).  After a `NULL`
from `realloc` the statement `buf->data = oldbuf;` leaves `data` pointing to the old block, whose
bytes are those `realloc64` reports. -/
def quicly_ringbuf_grow64 (buf : quicly_ringbuf_t) (min_grow_amount : Nat) (a : Realloc) :
    Option (Int × quicly_ringbuf_t) :=
  let old_size := buf.capacity
  match grow_new_size64 64 old_size (mul64 2 old_size) min_grow_amount with
  | none => none
  | some new_size =>
    match realloc64 buf.data new_size a with
    | (none, oldbuf) => some (-1, { buf with data := oldbuf })
    | (some data, _) =>
      let buf := { buf with data := data, capacity := new_size }
      if buf.end_off < buf.start_off then
        let move_size := sub64 old_size buf.start_off
        let data :=
          memcpy buf.data (sub64 buf.capacity move_size) buf.data buf.start_off move_size
        some (0, { buf with data := data,
                            start_off := add64 buf.start_off (sub64 new_size old_size) })
      else
        some (0, buf)

/-- `quicly_ringbuf_set (buf, off, src, len)` with `len = src.length` and the arithmetic of a
64-bit `size_t`; `off` and `len` are meant to be below `2 ^ 64`. -/
def quicly_ringbuf_set64 (buf : quicly_ringbuf_t) (off : Nat) (src : List Nat) (a : Realloc) :
    Option (Int × quicly_ringbuf_t) :=
  let len := src.length
  let grown : Option (Int × quicly_ringbuf_t) :=
    if add64 (add64 off len) 1 > buf.capacity then
      quicly_ringbuf_grow64 buf (sub64 (add64 (add64 off len) 1) buf.capacity) a
    else some (0, buf)
  match grown with
  | none => none
  | some (ret, buf) =>
    if ret ≠ 0 then
      some (ret, buf)
    else
      let cpy_start_off := add64 buf.start_off off
      let cpy_end_off := add64 cpy_start_off len
      let cpy_start_off :=
        if cpy_start_off ≥ buf.capacity then sub64 cpy_start_off buf.capacity else cpy_start_off
      let cpy_end_off :=
        if cpy_end_off ≥ buf.capacity then sub64 cpy_end_off buf.capacity else cpy_end_off
      let data :=
        if cpy_end_off < cpy_start_off then
          let split := sub64 buf.capacity cpy_start_off
          let data := memcpy buf.data cpy_start_off src 0 split
          memcpy data 0 src split cpy_end_off
        else
          memcpy buf.data cpy_start_off src 0 len
      let buf := { buf with data := data }
      if add64 off len > quicly_ringbuf_used64 buf then
        some (0, { buf with end_off := cpy_end_off })
      else
        some (0, buf)

/-- The well-formedness predicate on the offsets of a ring buffer of `lib/ringbuf.c`:
`capacity >= 1`, both cursors in `[0, capacity)`, and at most `capacity - 1` bytes in use. -/
def ring_invariant (buf : quicly_ringbuf_t) : Prop :=
  1 ≤ buf.capacity ∧ buf.start_off < buf.capacity ∧ buf.end_off < buf.capacity ∧
    quicly_ringbuf_used buf ≤ buf.capacity - 1

instance (buf : quicly_ringbuf_t) : Decidable (ring_invariant buf) := by
  unfold ring_invariant; infer_instance

/-! ## Definitions used to state and prove the reference scenario -/

/-- The struct without its storage: the three offsets, which alone decide the control flow of
`quicly_ringbuf_push` and `quicly_ringbuf_shift`. -/
def erase (b : quicly_ringbuf_t) : quicly_ringbuf_t := { b with data := [] }

/-- The outcome of an allocation with the contents of the block forgotten. -/
def alloc_erase : Alloc → Alloc
  | Alloc.fail => Alloc.fail
  | Alloc.ok _ => Alloc.ok (fun _ => 0)

/-- A call with the contents of the allocated block forgotten. -/
def op_erase : Op → Op
  | Op.push src a => Op.push src (alloc_erase a)
  | Op.shift amount => Op.shift amount

/-- The part of `quicly_ringbuf_push` after the growth: the copy and the new `end_off`
(`push_unfold` shows that the function is the growth followed by this). -/
def push_copy (buf : quicly_ringbuf_t) (src : List Nat) : quicly_ringbuf_t :=
  { data := ring_write buf.data buf.capacity buf.end_off
      (wrap_once (buf.end_off + src.length) buf.capacity) src,
    capacity := buf.capacity, start_off := buf.start_off,
    end_off := wrap_once (buf.end_off + src.length) buf.capacity }

/-- The payload `test_data` of the test `t/ringbuf.c`: the 19 bytes of the string
AZERTYUIOPQSDFGHJKL. -/
def test_data : List Nat :=
  [65, 90, 69, 82, 84, 89, 85, 73, 79, 80, 81, 83, 68, 70, 71, 72, 74, 75, 76]

/-! ## Memory and arithmetic lemmas -/

theorem length_memcpy (dst src : List Nat) (d s n : Nat)
    (hd : d + n ≤ dst.length) (hs : s + n ≤ src.length) :
    (memcpy dst d src s n).length = dst.length := by
  simp only [memcpy, List.length_append, List.length_take, List.length_drop]
  omega

theorem getElem?_memcpy (dst src : List Nat) (d s n i : Nat)
    (hd : d ≤ dst.length) (hs : s + n ≤ src.length) :
    (memcpy dst d src s n)[i]? =
      if i < d then dst[i]? else if i < d + n then src[s + (i - d)]? else dst[i]? := by
  have h1 : (dst.take d).length = d := by simp [List.length_take]; omega
  have h2 : ((src.drop s).take n).length = n := by
    simp [List.length_take, List.length_drop]; omega
  unfold memcpy
  by_cases hi : i < d
  · rw [if_pos hi, List.getElem?_append_left (by omega), List.getElem?_take_of_lt hi]
  · rw [if_neg hi, List.getElem?_append_right (by omega), h1]
    by_cases hi2 : i < d + n
    · rw [if_pos hi2, List.getElem?_append_left (by omega),
        List.getElem?_take_of_lt (by omega), List.getElem?_drop]
    · rw [if_neg hi2, List.getElem?_append_right (by omega), h2, List.getElem?_drop]
      congr 1; omega

theorem mod_once (a c : Nat) (h : a < 2 * c) : a % c = if c ≤ a then a - c else a := by
  split_ifs with hc
  · rw [Nat.mod_eq_sub_mod hc, Nat.mod_eq_of_lt (by omega)]
  · exact Nat.mod_eq_of_lt (by omega)

theorem grow_new_size_spec (fuel old new m r : Nat)
    (h : grow_new_size fuel old new m = some r) :
    ∃ k, r = new * 2 ^ k ∧ m ≤ r - old ∧ ∀ j, j < k → new * 2 ^ j - old < m := by
  induction fuel generalizing new with
  | zero => simp [grow_new_size] at h
  | succ fuel ih =>
    rw [grow_new_size] at h
    split_ifs at h with hlt
    · obtain ⟨k, hr, hm, hj⟩ := ih (new * 2) h
      refine ⟨k + 1, ?_, hm, ?_⟩
      · rw [hr, pow_succ]; ring
      · intro j hjk
        cases j with
        | zero => simpa using hlt
        | succ j =>
          have := hj j (by omega)
          rw [pow_succ]
          have e : new * (2 ^ j * 2) = new * 2 * 2 ^ j := by ring
          rw [e]; exact this
    · simp only [Option.some.injEq] at h
      subst h
      exact ⟨0, by simp, by omega, by intro j hj; omega⟩

theorem grow_new_size_total (fuel old new m : Nat) (hpos : old < new) (hfuel : 1 ≤ fuel)
    (hm : m < fuel + (new - old)) : ∃ r, grow_new_size fuel old new m = some r := by
  induction fuel generalizing new with
  | zero => omega
  | succ fuel ih =>
    rw [grow_new_size]
    split_ifs with hlt
    · exact ih (new * 2) (by omega) (by omega) (by omega)
    · exact ⟨new, rfl⟩

theorem grow_new_size_mono (fuel k old new m r : Nat)
    (h : grow_new_size fuel old new m = some r) :
    grow_new_size (fuel + k) old new m = some r := by
  induction fuel generalizing new with
  | zero => simp [grow_new_size] at h
  | succ fuel ih =>
    rw [grow_new_size] at h
    rw [show fuel + 1 + k = (fuel + k) + 1 by omega, grow_new_size]
    split_ifs at h ⊢ with hlt
    · exact ih (new * 2) h
    · exact h

theorem grow_new_size_zero (fuel m : Nat) (hm : 0 < m) : grow_new_size fuel 0 0 m = none := by
  induction fuel with
  | zero => rfl
  | succ fuel ih => rw [grow_new_size]; simp [hm, ih]

/-- The number of loop evaluations `quicly_ringbuf_grow` is given is enough: if the loop leaves
for some amount of fuel, it leaves for `min_grow_amount + 1`, with the same result. -/
theorem grow_new_size_fuel_adequate (fuel c m r : Nat)
    (h : grow_new_size fuel c (2 * c) m = some r) :
    grow_new_size (m + 1) c (2 * c) m = some r := by
  rcases Nat.eq_zero_or_pos c with hc | hc
  · subst hc
    rcases Nat.eq_zero_or_pos m with hm | hm
    · subst hm
      cases fuel with
      | zero => simp [grow_new_size] at h
      | succ fuel => simpa [grow_new_size] using h
    · rw [grow_new_size_zero fuel m hm] at h; cases h
  · obtain ⟨r', hr'⟩ := grow_new_size_total (m + 1) c (2 * c) m (by omega) (by omega) (by omega)
    have h1 := grow_new_size_mono fuel (m + 1) c (2 * c) m r h
    have h2 := grow_new_size_mono (m + 1) fuel c (2 * c) m r' hr'
    rw [show m + 1 + fuel = fuel + (m + 1) by omega, h1] at h2
    rw [hr', ← h2]


theorem realloc_ok (data : List Nat) (N : Nat) (fresh : Nat → Nat) (hN : data.length ≤ N) :
    ∃ d, realloc data N (Alloc.ok fresh) = some d ∧ d.length = N ∧
      ∀ p, p < data.length → d[p]? = data[p]? := by
  refine ⟨_, rfl, ?_, ?_⟩
  · simp [List.length_take]; omega
  · intro p hp
    rw [List.take_of_length_le hN, List.getElem?_append_left hp]

theorem grow_capacity (c m : Nat) (hc : 1 ≤ c) :
    ∃ N k, grow_new_size (m + 1) c (2 * c) m = some N ∧ N = c * 2 ^ k ∧ 1 ≤ k ∧
      m ≤ N - c ∧ (∀ j, 1 ≤ j → j < k → c * 2 ^ j - c < m) ∧ 2 * c ≤ N := by
  obtain ⟨N, hN⟩ := grow_new_size_total (m + 1) c (2 * c) m (by omega) (by omega) (by omega)
  obtain ⟨k, hk, hm, hj⟩ := grow_new_size_spec _ _ _ _ _ hN
  have e : ∀ j, 2 * c * 2 ^ j = c * 2 ^ (j + 1) := by intro j; rw [pow_succ]; ring
  refine ⟨N, k + 1, hN, by rw [hk, e], by omega, hm, ?_, ?_⟩
  · intro j h1 h2
    obtain ⟨j', rfl⟩ : ∃ j', j = j' + 1 := ⟨j - 1, by omega⟩
    rw [← e]; exact hj j' (by omega)
  · rw [hk]
    have : 1 ≤ 2 ^ k := Nat.one_le_two_pow
    nlinarith

theorem used_lt_capacity (b : quicly_ringbuf_t) (hwf : WellFormed b) :
    quicly_ringbuf_used b < b.capacity := by
  obtain ⟨_, _, hs, he⟩ := hwf
  unfold quicly_ringbuf_used
  split_ifs <;> omega

theorem grow_ok (b : quicly_ringbuf_t) (m : Nat) (fresh : Nat → Nat) (hwf : WellFormed b) :
    ∃ b', quicly_ringbuf_grow b m (Alloc.ok fresh) = some (0, b') ∧ WellFormed b' ∧
      b.capacity + m ≤ b'.capacity ∧ 2 * b.capacity ≤ b'.capacity ∧
      b'.end_off = b.end_off ∧
      quicly_ringbuf_used b' = quicly_ringbuf_used b ∧
      ∀ i, i < quicly_ringbuf_used b → logical_byte b' i = logical_byte b i := by
  obtain ⟨hlen, hc, hs, he⟩ := hwf
  obtain ⟨N, k, hN, -, -, hm, -, h2⟩ := grow_capacity b.capacity m hc
  obtain ⟨d, hd, hdlen, hdp⟩ := realloc_ok b.data N fresh (by omega)
  unfold quicly_ringbuf_grow
  simp only [hN, hd]
  by_cases hw : b.end_off < b.start_off
  · simp only [hw, if_true]
    refine ⟨_, rfl, ⟨?_, ?_, ?_, ?_⟩, ?_, ?_, rfl, ?_, ?_⟩
    · simp only []
      rw [length_memcpy _ _ _ _ _ (by omega) (by omega)]; exact hdlen
    · simp only []; omega
    · simp only []; omega
    · simp only []; omega
    · simp only []; omega
    · simp only []; omega
    · simp only [quicly_ringbuf_used]
      rw [if_neg (by omega), if_neg (by omega)]; omega
    · intro i hi
      simp only [quicly_ringbuf_used, if_neg (show ¬ b.end_off ≥ b.start_off by omega)] at hi
      simp only [logical_byte]
      by_cases hi2 : i < b.capacity - b.start_off
      · have e1 : (b.start_off + (N - b.capacity) + i) % N = b.start_off + (N - b.capacity) + i :=
          Nat.mod_eq_of_lt (by omega)
        have e2 : (b.start_off + i) % b.capacity = b.start_off + i := Nat.mod_eq_of_lt (by omega)
        rw [e1, e2, getElem?_memcpy _ _ _ _ _ _ (by omega) (by omega), if_neg (by omega),
          if_pos (by omega), hdp _ (by omega)]
        congr 1; omega
      · have e1 : (b.start_off + (N - b.capacity) + i) % N = b.start_off + i - b.capacity := by
          rw [mod_once _ N (by omega), if_pos (by omega)]; omega
        have e2 : (b.start_off + i) % b.capacity = b.start_off + i - b.capacity := by
          rw [mod_once _ _ (by omega), if_pos (by omega)]
        rw [e1, e2, getElem?_memcpy _ _ _ _ _ _ (by omega) (by omega), if_pos (by omega),
          hdp _ (by omega)]
  · simp only [hw, if_false]
    refine ⟨_, rfl, ⟨hdlen, ?_, ?_, ?_⟩, ?_, ?_, rfl, ?_, ?_⟩
    · simp only []; omega
    · simp only []; omega
    · simp only []; omega
    · simp only []; omega
    · simp only []; omega
    · simp only [quicly_ringbuf_used]
      rw [if_pos (by omega), if_pos (by omega)]
    · intro i hi
      simp only [quicly_ringbuf_used, if_pos (show b.end_off ≥ b.start_off by omega)] at hi
      simp only [logical_byte]
      rw [Nat.mod_eq_of_lt (by omega), Nat.mod_eq_of_lt (by omega), hdp _ (by omega)]

theorem available_eq (b : quicly_ringbuf_t) (hwf : WellFormed b) :
    quicly_ringbuf_available b = b.capacity - quicly_ringbuf_used b - 1 := by
  obtain ⟨_, _, hs, he⟩ := hwf
  unfold quicly_ringbuf_available quicly_ringbuf_used
  split_ifs <;> omega

theorem ring_write_spec (data : List Nat) (c cs ce : Nat) (src : List Nat)
    (hlen : data.length = c) (hcs : cs < c) (hsrc : src.length < c)
    (hce : ce = if cs + src.length ≥ c then cs + src.length - c else cs + src.length) :
    (ring_write data c cs ce src).length = c ∧
    ∀ p, p < c → (ring_write data c cs ce src)[p]? =
      if cs ≤ p ∧ p < cs + src.length then src[p - cs]?
      else if p + c < cs + src.length then src[p + c - cs]? else data[p]? := by
  unfold ring_write
  by_cases hw : cs + src.length ≥ c
  · rw [if_pos hw] at hce
    have hlt : ce < cs := by omega
    rw [if_pos hlt]
    have l1 : (memcpy data cs src 0 (c - cs)).length = c := by
      rw [length_memcpy _ _ _ _ _ (by omega) (by omega)]; exact hlen
    refine ⟨by rw [length_memcpy _ _ _ _ _ (by omega) (by omega)]; exact l1, ?_⟩
    intro p hp
    rw [getElem?_memcpy _ _ _ _ _ _ (by omega) (by omega),
      getElem?_memcpy _ _ _ _ _ _ (by omega) (by omega)]
    by_cases h1 : p < ce
    · rw [if_neg (by omega), if_pos (by omega), if_neg (by omega), if_pos (by omega)]
      congr 1; omega
    · by_cases h2 : p < cs
      · rw [if_neg (by omega), if_neg (by omega), if_pos (by omega), if_neg (by omega),
          if_neg (by omega)]
      · rw [if_neg (by omega), if_neg (by omega), if_neg (by omega), if_pos (by omega),
          if_pos (by omega)]
        congr 1; omega
  · rw [if_neg hw] at hce
    have hlt : ¬ ce < cs := by omega
    rw [if_neg hlt]
    refine ⟨by rw [length_memcpy _ _ _ _ _ (by omega) (by omega)]; exact hlen, ?_⟩
    intro p hp
    rw [getElem?_memcpy _ _ _ _ _ _ (by omega) (by omega)]
    by_cases h1 : p < cs
    · rw [if_pos h1, if_neg (by omega), if_neg (by omega)]
    · by_cases h2 : p < cs + src.length
      · rw [if_neg h1, if_pos h2, if_pos (by omega)]
        congr 1; omega
      · rw [if_neg h1, if_neg h2, if_neg (by omega), if_neg (by omega)]


theorem set_nogrow_eq (b : quicly_ringbuf_t) (off : Nat) (src : List Nat) (a : Alloc)
    (hcap : off + src.length + 1 ≤ b.capacity) :
    quicly_ringbuf_set b off src a = some (0,
      { data := ring_write b.data b.capacity (wrap_once (b.start_off + off) b.capacity)
          (wrap_once (b.start_off + off + src.length) b.capacity) src,
        capacity := b.capacity, start_off := b.start_off,
        end_off := if off + src.length > quicly_ringbuf_used b then
          wrap_once (b.start_off + off + src.length) b.capacity else b.end_off }) := by
  unfold quicly_ringbuf_set ring_write wrap_once
  simp only [if_neg (show ¬ off + src.length + 1 > b.capacity by omega)]
  simp only [ne_eq, not_true_eq_false, if_false]
  have hu : ∀ d, quicly_ringbuf_used { b with data := d } = quicly_ringbuf_used b := fun _ => rfl
  simp only [hu]
  split_ifs <;> rfl


theorem set_nogrow (b : quicly_ringbuf_t) (off : Nat) (src : List Nat) (a : Alloc)
    (hwf : WellFormed b) (hcap : off + src.length + 1 ≤ b.capacity) :
    ∃ b', quicly_ringbuf_set b off src a = some (0, b') ∧ WellFormed b' ∧
      b'.capacity = b.capacity ∧ b'.start_off = b.start_off ∧
      quicly_ringbuf_used b' = max (quicly_ringbuf_used b) (off + src.length) ∧
      ∀ j, j < b.capacity → logical_byte b' j =
        if off ≤ j ∧ j < off + src.length then src[j - off]? else logical_byte b j := by
  obtain ⟨hlen, hc, hs, he⟩ := hwf
  have hce : wrap_once (b.start_off + off + src.length) b.capacity =
      if wrap_once (b.start_off + off) b.capacity + src.length ≥ b.capacity then
        wrap_once (b.start_off + off) b.capacity + src.length - b.capacity
      else wrap_once (b.start_off + off) b.capacity + src.length := by
    unfold wrap_once; split_ifs <;> omega
  have hcs : wrap_once (b.start_off + off) b.capacity < b.capacity := by
    unfold wrap_once; split_ifs <;> omega
  have hce2 : wrap_once (b.start_off + off + src.length) b.capacity < b.capacity := by
    unfold wrap_once; split_ifs <;> omega
  obtain ⟨hl, hp⟩ := ring_write_spec b.data b.capacity _ _ src hlen hcs (by omega) hce
  refine ⟨_, set_nogrow_eq b off src a hcap, ⟨hl, hc, hs, ?_⟩, rfl, rfl, ?_, ?_⟩
  · simp only []; split_ifs <;> omega
  · simp only [quicly_ringbuf_used, wrap_once]
    split_ifs <;> omega
  · intro j hj
    simp only [logical_byte]
    rw [mod_once _ _ (by omega), hp _ (by split_ifs <;> omega)]
    simp only [wrap_once]
    split_ifs <;> first | rfl | omega | (congr 1; omega)


theorem set_grow_eq (b b' : quicly_ringbuf_t) (off : Nat) (src : List Nat) (a a' : Alloc)
    (hneed : off + src.length + 1 > b.capacity)
    (hg : quicly_ringbuf_grow b (off + src.length + 1 - b.capacity) a = some (0, b'))
    (hroom : off + src.length + 1 ≤ b'.capacity) :
    quicly_ringbuf_set b off src a = quicly_ringbuf_set b' off src a' := by
  rw [set_nogrow_eq b' off src a' hroom]
  unfold quicly_ringbuf_set ring_write wrap_once
  simp only [if_pos hneed, hg]
  simp only [ne_eq, not_true_eq_false, if_false]
  have hu : ∀ d, quicly_ringbuf_used { b' with data := d } = quicly_ringbuf_used b' := fun _ => rfl
  simp only [hu]
  split_ifs <;> rfl

/-- A call of `quicly_ringbuf_set` that needs no growth, or whose growth gets its memory,
returns 0; its effect on `used()` and on the logical bytes. -/
theorem set_ok (b : quicly_ringbuf_t) (off : Nat) (src : List Nat) (a : Alloc)
    (hwf : WellFormed b)
    (hok : off + src.length + 1 ≤ b.capacity ∨ a ≠ Alloc.fail) :
    ∃ b', quicly_ringbuf_set b off src a = some (0, b') ∧ WellFormed b' ∧
      off + src.length + 1 ≤ b'.capacity ∧
      quicly_ringbuf_used b' = max (quicly_ringbuf_used b) (off + src.length) ∧
      (∀ i, i < src.length → logical_byte b' (off + i) = src[i]?) ∧
      ∀ j, j < quicly_ringbuf_used b → ¬ (off ≤ j ∧ j < off + src.length) →
        logical_byte b' j = logical_byte b j := by
  by_cases hcap : off + src.length + 1 ≤ b.capacity
  · obtain ⟨b', h1, h2, h3, -, h5, h6⟩ := set_nogrow b off src a hwf hcap
    have hu := used_lt_capacity b hwf
    refine ⟨b', h1, h2, by omega, h5, ?_, ?_⟩
    · intro i hi
      rw [h6 _ (by omega), if_pos (by omega)]
      congr 1; omega
    · intro j hj hn
      rw [h6 _ (by omega), if_neg hn]
  · obtain ⟨fresh, rfl⟩ : ∃ fresh, a = Alloc.ok fresh := by
      cases a with
      | fail => rcases hok with h | h
                · omega
                · exact absurd rfl h
      | ok fresh => exact ⟨fresh, rfl⟩
    obtain ⟨g, hg, hgwf, hgcap, -, -, hgu, hgl⟩ :=
      grow_ok b (off + src.length + 1 - b.capacity) fresh hwf
    have hroom : off + src.length + 1 ≤ g.capacity := by omega
    obtain ⟨b', h1, h2, h3, -, h5, h6⟩ := set_nogrow g off src Alloc.fail hgwf hroom
    have hu := used_lt_capacity g hgwf
    refine ⟨b', ?_, h2, by omega, by rw [h5, hgu], ?_, ?_⟩
    · rw [set_grow_eq b g off src _ Alloc.fail (by omega) hg hroom]; exact h1
    · intro i hi
      rw [h6 _ (by omega), if_pos (by omega)]
      congr 1; omega
    · intro j hj hn
      rw [h6 _ (by omega), if_neg hn]
      exact hgl j hj


theorem push_nogrow_eq (b : quicly_ringbuf_t) (src : List Nat) (a : Alloc)
    (hroom : src.length ≤ quicly_ringbuf_available b) :
    quicly_ringbuf_push b src a = some (0,
      { data := ring_write b.data b.capacity b.end_off
          (wrap_once (b.end_off + src.length) b.capacity) src,
        capacity := b.capacity, start_off := b.start_off,
        end_off := wrap_once (b.end_off + src.length) b.capacity }) := by
  unfold quicly_ringbuf_push ring_write wrap_once
  simp only [if_neg (show ¬ quicly_ringbuf_available b < src.length by omega)]
  simp only [ne_eq, not_true_eq_false, if_false]
  split_ifs <;> rfl

theorem push_grow_eq (b b' : quicly_ringbuf_t) (src : List Nat) (a a' : Alloc)
    (hneed : quicly_ringbuf_available b < src.length)
    (hg : quicly_ringbuf_grow b (src.length - quicly_ringbuf_available b) a = some (0, b'))
    (hroom : src.length ≤ quicly_ringbuf_available b') :
    quicly_ringbuf_push b src a = quicly_ringbuf_push b' src a' := by
  rw [push_nogrow_eq b' src a' hroom]
  unfold quicly_ringbuf_push ring_write wrap_once
  simp only [if_pos hneed, hg]
  simp only [ne_eq, not_true_eq_false, if_false]
  split_ifs <;> rfl

theorem push_eq_set_nogrow (b : quicly_ringbuf_t) (src : List Nat) (a a' : Alloc)
    (hwf : WellFormed b) (hroom : src.length ≤ quicly_ringbuf_available b) :
    quicly_ringbuf_push b src a = quicly_ringbuf_set b (quicly_ringbuf_used b) src a' := by
  have hav := available_eq b hwf
  have hu := used_lt_capacity b hwf
  obtain ⟨_, _, hs, he⟩ := hwf
  rw [push_nogrow_eq b src a hroom, set_nogrow_eq b _ src a' (by omega)]
  have e1 : wrap_once (b.start_off + quicly_ringbuf_used b) b.capacity = b.end_off := by
    unfold wrap_once quicly_ringbuf_used; split_ifs <;> omega
  have e2 : wrap_once (b.start_off + quicly_ringbuf_used b + src.length) b.capacity =
      wrap_once (b.end_off + src.length) b.capacity := by
    unfold quicly_ringbuf_used at hav hu ⊢
    unfold wrap_once; split_ifs at hav hu ⊢ <;> omega
  have e3 : (if quicly_ringbuf_used b + src.length > quicly_ringbuf_used b then
      wrap_once (b.end_off + src.length) b.capacity else b.end_off) =
      wrap_once (b.end_off + src.length) b.capacity := by
    unfold wrap_once; split_ifs <;> omega
  rw [e1, e2, e3]

/-- A call of `quicly_ringbuf_push` that needs no growth, or whose growth gets its memory,
returns 0, appends `src` after the stored bytes and keeps the stored bytes. -/
theorem push_ok (b : quicly_ringbuf_t) (src : List Nat) (a : Alloc) (hwf : WellFormed b)
    (hok : src.length ≤ quicly_ringbuf_available b ∨ a ≠ Alloc.fail) :
    ∃ b', quicly_ringbuf_push b src a = some (0, b') ∧ WellFormed b' ∧
      quicly_ringbuf_used b' = quicly_ringbuf_used b + src.length ∧
      (∀ i, i < src.length → logical_byte b' (quicly_ringbuf_used b + i) = src[i]?) ∧
      ∀ j, j < quicly_ringbuf_used b → logical_byte b' j = logical_byte b j := by
  by_cases hroom : src.length ≤ quicly_ringbuf_available b
  · obtain ⟨b', h1, h2, -, h4, h5, h6⟩ :=
      set_ok b (quicly_ringbuf_used b) src Alloc.fail hwf
        (Or.inl (by have := available_eq b hwf; have := used_lt_capacity b hwf; omega))
    refine ⟨b', ?_, h2, by rw [h4]; omega, h5, fun j hj => h6 j hj (by omega)⟩
    rw [push_eq_set_nogrow b src a Alloc.fail hwf hroom]; exact h1
  · obtain ⟨fresh, rfl⟩ : ∃ fresh, a = Alloc.ok fresh := by
      cases a with
      | fail => rcases hok with h | h
                · omega
                · exact absurd rfl h
      | ok fresh => exact ⟨fresh, rfl⟩
    obtain ⟨g, hg, hgwf, hgcap, -, -, hgu, hgl⟩ :=
      grow_ok b (src.length - quicly_ringbuf_available b) fresh hwf
    have hav := available_eq b hwf
    have hu := used_lt_capacity b hwf
    have hgav := available_eq g hgwf
    have hgroom : src.length ≤ quicly_ringbuf_available g := by omega
    obtain ⟨b', h1, h2, -, h4, h5, h6⟩ :=
      set_ok g (quicly_ringbuf_used g) src Alloc.fail hgwf (Or.inl (by omega))
    refine ⟨b', ?_, h2, by rw [h4, hgu]; omega, ?_, ?_⟩
    · rw [push_grow_eq b g src _ Alloc.fail (by omega) hg hgroom,
        push_eq_set_nogrow g src Alloc.fail Alloc.fail hgwf hgroom]
      exact h1
    · intro i hi; rw [← hgu]; exact h5 i hi
    · intro j hj
      rw [h6 j (by omega) (by omega)]
      exact hgl j hj

theorem memcpy_zero_left (dst src : List Nat) (s n : Nat) :
    memcpy dst 0 src s n = (src.drop s).take n ++ dst.drop n := by
  simp [memcpy]

theorem ring_read_spec (dst data : List Nat) (c cs ce n : Nat)
    (hlen : data.length = c) (hcs : cs < c) (hn : n < c)
    (hce : ce = if cs + n ≥ c then cs + n - c else cs + n) :
    ∃ W, ring_read dst data c cs ce n = W ++ dst.drop n ∧ W.length = n ∧
      ∀ i, i < n → W[i]? = data[wrap_once (cs + i) c]? := by
  unfold ring_read
  by_cases hw : cs + n ≥ c
  · rw [if_pos hw] at hce
    have hlt : ce < cs := by omega
    rw [if_pos hlt, memcpy_zero_left]
    have l1 : ((data.drop cs).take (c - cs)).length = c - cs := by
      simp [List.length_take, List.length_drop]; omega
    refine ⟨(data.drop cs).take (c - cs) ++ data.take ce, ?_, ?_, ?_⟩
    · unfold memcpy
      have t : (List.take (c - cs) (List.drop cs data) ++ List.drop (c - cs) dst).take (c - cs)
          = List.take (c - cs) (List.drop cs data) := List.take_left' l1
      have d : (List.take (c - cs) (List.drop cs data) ++ List.drop (c - cs) dst).drop
          (c - cs + ce) = (List.drop (c - cs) dst).drop ce := by
        have := @List.drop_append _ (List.take (c - cs) (List.drop cs data))
          (List.drop (c - cs) dst) ce
        rw [l1] at this; exact this
      have dd : (List.drop (c - cs) dst).drop ce = dst.drop n := by
        rw [List.drop_drop]; congr 1; omega
      rw [t, d, dd, List.drop_zero, List.append_assoc]
    · simp [List.length_take, List.length_drop]; omega
    · intro i hi
      unfold wrap_once
      by_cases h1 : i < c - cs
      · rw [List.getElem?_append_left (by omega), List.getElem?_take_of_lt h1,
          List.getElem?_drop, if_neg (by omega)]
      · rw [List.getElem?_append_right (by omega), l1, List.getElem?_take_of_lt (by omega),
          if_pos (by omega)]
        congr 1; omega
  · rw [if_neg hw] at hce
    rw [if_neg (show ¬ ce < cs by omega), memcpy_zero_left]
    refine ⟨(data.drop cs).take n, rfl, ?_, ?_⟩
    · simp [List.length_take, List.length_drop]; omega
    · intro i hi
      unfold wrap_once
      rw [List.getElem?_take_of_lt hi, List.getElem?_drop, if_neg (by omega)]

theorem emit_eq (b : quicly_ringbuf_t) (off : Nat) (dst : List Nat) (len : Nat)
    (hoff : off ≤ quicly_ringbuf_used b) :
    quicly_ringbuf_emit b off dst len = some
      { ret := 0
        dst := ring_read dst b.data b.capacity (wrap_once (b.start_off + off) b.capacity)
          (wrap_once (b.start_off + off + min len (quicly_ringbuf_used b - off)) b.capacity)
          (min len (quicly_ringbuf_used b - off))
        len := min len (quicly_ringbuf_used b - off)
        wrote_all := if off + len < quicly_ringbuf_used b then 0 else 1 } := by
  unfold quicly_ringbuf_emit ring_read wrap_once
  simp only [if_pos hoff]
  by_cases h : off + len < quicly_ringbuf_used b
  · have e : min len (quicly_ringbuf_used b - off) = len := by omega
    simp only [if_pos h, e]
    split_ifs <;> rfl
  · have e : min len (quicly_ringbuf_used b - off) = quicly_ringbuf_used b - off := by omega
    simp only [if_neg h, e]
    split_ifs <;> rfl

theorem emit_spec (b : quicly_ringbuf_t) (off : Nat) (dst : List Nat) (len : Nat)
    (hwf : WellFormed b) (hoff : off ≤ quicly_ringbuf_used b) :
    ∃ W, quicly_ringbuf_emit b off dst len = some
        { ret := 0
          dst := W ++ dst.drop (min len (quicly_ringbuf_used b - off))
          len := min len (quicly_ringbuf_used b - off)
          wrote_all := if off + len < quicly_ringbuf_used b then 0 else 1 } ∧
      W.length = min len (quicly_ringbuf_used b - off) ∧
      ∀ i, i < min len (quicly_ringbuf_used b - off) → W[i]? = logical_byte b (off + i) := by
  have hu := used_lt_capacity b hwf
  obtain ⟨hlen, hc, hs, he⟩ := hwf
  have hcs : wrap_once (b.start_off + off) b.capacity < b.capacity := by
    unfold wrap_once; split_ifs <;> omega
  have hce : wrap_once (b.start_off + off + min len (quicly_ringbuf_used b - off)) b.capacity =
      if wrap_once (b.start_off + off) b.capacity + min len (quicly_ringbuf_used b - off)
          ≥ b.capacity then
        wrap_once (b.start_off + off) b.capacity + min len (quicly_ringbuf_used b - off)
          - b.capacity
      else wrap_once (b.start_off + off) b.capacity + min len (quicly_ringbuf_used b - off) := by
    unfold wrap_once; split_ifs <;> omega
  obtain ⟨W, hW, hWl, hWp⟩ := ring_read_spec dst b.data b.capacity _ _
    (min len (quicly_ringbuf_used b - off)) hlen hcs (by omega) hce
  refine ⟨W, by rw [emit_eq b off dst len hoff, hW], hWl, ?_⟩
  intro i hi
  rw [hWp i hi, logical_byte, mod_once _ _ (by omega)]
  unfold wrap_once
  split_ifs <;> first | rfl | omega | (congr 1; omega)

theorem logical_byte_lt (b : quicly_ringbuf_t) (i : Nat) (hwf : WellFormed b) :
    (b.start_off + i) % b.capacity < b.data.length := by
  obtain ⟨hlen, hc, -, -⟩ := hwf
  rw [hlen]; exact Nat.mod_lt _ (by omega)

theorem grow_fail (b : quicly_ringbuf_t) (m : Nat) (hc : 1 ≤ b.capacity) :
    quicly_ringbuf_grow b m Alloc.fail = some (-1, b) := by
  obtain ⟨N, k, hN, -⟩ := grow_capacity b.capacity m hc
  unfold quicly_ringbuf_grow
  simp only [hN, realloc]

theorem grow_capacity_eq (b : quicly_ringbuf_t) (m N : Nat) (fresh : Nat → Nat)
    (hN : grow_new_size (m + 1) b.capacity (2 * b.capacity) m = some N) :
    ∃ b', quicly_ringbuf_grow b m (Alloc.ok fresh) = some (0, b') ∧ b'.capacity = N := by
  unfold quicly_ringbuf_grow
  simp only [hN, realloc]
  split_ifs <;> exact ⟨_, rfl, rfl⟩

theorem grow_start_off (b b' : quicly_ringbuf_t) (m : Nat) (a : Alloc)
    (h : quicly_ringbuf_grow b m a = some (0, b')) :
    b'.start_off = if b.end_off < b.start_off then b.start_off + (b'.capacity - b.capacity)
      else b.start_off := by
  unfold quicly_ringbuf_grow at h
  cases hN : grow_new_size (m + 1) b.capacity (2 * b.capacity) m with
  | none => simp [hN] at h
  | some N =>
    cases hd : realloc b.data N a with
    | none => simp [hN, hd] at h
    | some d =>
      simp only [hN, hd] at h
      split_ifs at h with hw
      · simp only [Option.some.injEq, Prod.mk.injEq, true_and] at h
        subst h; simp only [if_pos hw]
      · simp only [Option.some.injEq, Prod.mk.injEq, true_and] at h
        subst h; simp only [if_neg hw]


theorem shift_spec (b : quicly_ringbuf_t) (n : Nat) (hwf : WellFormed b)
    (hn : n ≤ quicly_ringbuf_used b) :
    WellFormed (quicly_ringbuf_shift b n) ∧
      quicly_ringbuf_used (quicly_ringbuf_shift b n) = quicly_ringbuf_used b - n ∧
      ∀ i, logical_byte (quicly_ringbuf_shift b n) i = logical_byte b (n + i) := by
  have hu := used_lt_capacity b hwf
  obtain ⟨hlen, hc, hs, he⟩ := hwf
  unfold quicly_ringbuf_shift
  simp only []
  by_cases h : b.start_off + n ≥ b.capacity
  · rw [if_pos h]
    refine ⟨⟨hlen, hc, by simp only []; omega, he⟩, ?_, ?_⟩
    · unfold quicly_ringbuf_used at hn hu ⊢
      simp only []
      split_ifs at hn hu ⊢ <;> omega
    · intro i
      simp only [logical_byte]
      congr 1
      have e : b.start_off + (n + i) = (b.start_off + n - b.capacity + i) + b.capacity := by omega
      rw [e, Nat.add_mod_right]
  · rw [if_neg h]
    refine ⟨⟨hlen, hc, by simp only []; omega, he⟩, ?_, ?_⟩
    · unfold quicly_ringbuf_used at hn hu ⊢
      simp only []
      split_ifs at hn hu ⊢ <;> omega
    · intro i
      simp only [logical_byte]
      rw [Nat.add_assoc]

theorem push_fail (b : quicly_ringbuf_t) (src : List Nat) (hc : 1 ≤ b.capacity)
    (hneed : quicly_ringbuf_available b < src.length) :
    quicly_ringbuf_push b src Alloc.fail = some (-1, b) := by
  unfold quicly_ringbuf_push
  simp only [if_pos hneed, grow_fail b _ hc]
  simp

theorem push_zero_imp_ok (b b' : quicly_ringbuf_t) (src : List Nat) (a : Alloc)
    (hwf : WellFormed b) (h : quicly_ringbuf_push b src a = some (0, b')) :
    src.length ≤ quicly_ringbuf_available b ∨ a ≠ Alloc.fail := by
  by_cases hroom : src.length ≤ quicly_ringbuf_available b
  · exact Or.inl hroom
  · right
    rintro rfl
    rw [push_fail b src hwf.2.1 (by omega)] at h
    simp at h

theorem init_ok (buf : quicly_ringbuf_t) (start_size : Nat) (fresh : Nat → Nat)
    (h : 1 ≤ start_size) :
    ∃ b, quicly_ringbuf_init buf start_size (Alloc.ok fresh) = (0, b) ∧ WellFormed b ∧
      b.capacity = start_size ∧ b.start_off = 0 ∧ b.end_off = 0 ∧ quicly_ringbuf_used b = 0 := by
  obtain ⟨d, hd, hdl, -⟩ := realloc_ok [] start_size fresh (by simp)
  unfold quicly_ringbuf_init malloc
  simp only [hd]
  exact ⟨_, rfl, ⟨hdl, h, by simp only []; omega, by simp only []; omega⟩, rfl, rfl, rfl, rfl⟩

theorem repr_push (b b' : quicly_ringbuf_t) (q src : List Nat) (a : Alloc) (hr : Repr b q)
    (h : quicly_ringbuf_push b src a = some (0, b')) : Repr b' (q ++ src) := by
  obtain ⟨hwf, hu, hq⟩ := hr
  obtain ⟨b2, h1, h2, h3, h4, h5⟩ := push_ok b src a hwf (push_zero_imp_ok b b' src a hwf h)
  rw [h] at h1
  simp only [Option.some.injEq, Prod.mk.injEq, true_and] at h1
  subst h1
  refine ⟨h2, by rw [h3, hu, List.length_append], ?_⟩
  intro i hi
  rw [List.length_append] at hi
  by_cases hi2 : i < q.length
  · rw [h5 i (by omega), hq i hi2, List.getElem?_append_left hi2]
  · rw [List.getElem?_append_right (by omega)]
    have := h4 (i - q.length) (by omega)
    rw [hu] at this
    rw [← this]; congr 1; omega

theorem repr_shift (b : quicly_ringbuf_t) (q : List Nat) (n : Nat) (hr : Repr b q)
    (hn : n ≤ quicly_ringbuf_used b) : Repr (quicly_ringbuf_shift b n) (q.drop n) := by
  obtain ⟨hwf, hu, hq⟩ := hr
  obtain ⟨h1, h2, h3⟩ := shift_spec b n hwf hn
  refine ⟨h1, by rw [h2, hu, List.length_drop], ?_⟩
  intro i hi
  rw [List.length_drop] at hi
  rw [h3 i, hq _ (by omega), List.getElem?_drop]

theorem repr_run (ops : List Op) (b b' : quicly_ringbuf_t) (q : List Nat) (hr : Repr b q)
    (h : run b ops = some b') :
    Repr b' ((q ++ pushed_bytes ops).drop (shifted_total ops)) ∧
      shifted_total ops ≤ (q ++ pushed_bytes ops).length := by
  induction ops generalizing b q with
  | nil =>
    simp only [run, Option.some.injEq] at h
    subst h
    simpa [pushed_bytes, shifted_total] using hr
  | cons op ops ih =>
    cases op with
    | push src a =>
      simp only [run] at h
      cases hp : quicly_ringbuf_push b src a with
      | none => simp [hp] at h
      | some r =>
        obtain ⟨ret, b1⟩ := r
        simp only [hp] at h
        split_ifs at h with hret
        subst hret
        have := ih b1 (q ++ src) (repr_push b b1 q src a hr hp) h
        simpa [pushed_bytes, shifted_total, List.append_assoc] using this
    | shift n =>
      simp only [run] at h
      split_ifs at h with hn
      have hql : n ≤ q.length := by rw [← hr.2.1]; exact hn
      obtain ⟨h1, h2⟩ := ih (quicly_ringbuf_shift b n) (q.drop n) (repr_shift b q n hr hn) h
      have e : (q ++ pushed_bytes ops).drop n = q.drop n ++ pushed_bytes ops :=
        List.drop_append_of_le_length hql
      simp only [pushed_bytes, shifted_total]
      refine ⟨?_, ?_⟩
      · have e2 : (q ++ pushed_bytes ops).drop (n + shifted_total ops) =
            ((q ++ pushed_bytes ops).drop n).drop (shifted_total ops) := by
          rw [List.drop_drop]
        rw [e2, e]; exact h1
      · simp only [List.length_append, List.length_drop] at h2 ⊢; omega

theorem run_total (ops : List Op) (b : quicly_ringbuf_t) (q : List Nat) (hr : Repr b q)
    (hg : growth_succeeds ops) (hs : shifts_within q.length ops) :
    ∃ b', run b ops = some b' := by
  induction ops generalizing b q with
  | nil => exact ⟨b, rfl⟩
  | cons op ops ih =>
    cases op with
    | push src a =>
      obtain ⟨b1, h1, -⟩ := push_ok b src a hr.1 (Or.inr hg.1)
      simp only [run, h1, if_true]
      have hs' : shifts_within (q ++ src).length ops := by
        rw [List.length_append]; exact hs
      exact ih b1 (q ++ src) (repr_push b b1 q src a hr h1) hg.2 hs'
    | shift n =>
      have hn : n ≤ quicly_ringbuf_used b := by rw [hr.2.1]; exact hs.1
      simp only [run, if_pos hn]
      have hs' : shifts_within (q.drop n).length ops := by
        rw [List.length_drop]; exact hs.2
      exact ih _ (q.drop n) (repr_shift b q n hr hn) hg hs'

theorem repr_emit (b : quicly_ringbuf_t) (q dst : List Nat) (hr : Repr b q) :
    quicly_ringbuf_emit b 0 dst (quicly_ringbuf_used b) =
      some { ret := 0, dst := q ++ dst.drop (quicly_ringbuf_used b),
             len := quicly_ringbuf_used b, wrote_all := 1 } := by
  obtain ⟨hwf, hu, hq⟩ := hr
  obtain ⟨W, hW, hWl, hWp⟩ := emit_spec b 0 dst (quicly_ringbuf_used b) hwf (Nat.zero_le _)
  have e : min (quicly_ringbuf_used b) (quicly_ringbuf_used b - 0) = quicly_ringbuf_used b := by
    omega
  rw [e] at hW hWl hWp
  have hWq : W = q := by
    apply List.ext_getElem?
    intro i
    by_cases hi : i < q.length
    · rw [hWp i (by omega), Nat.zero_add, hq i hi]
    · rw [List.getElem?_eq_none (by omega), List.getElem?_eq_none (by omega)]
  rw [hW, hWq, if_neg (by omega)]


theorem set_fail (b : quicly_ringbuf_t) (off : Nat) (src : List Nat) (hc : 1 ≤ b.capacity)
    (hneed : off + src.length + 1 > b.capacity) :
    quicly_ringbuf_set b off src Alloc.fail = some (-1, b) := by
  unfold quicly_ringbuf_set
  simp only [if_pos hneed, grow_fail b _ hc]
  simp

theorem erase_eq_iff (b1 b2 : quicly_ringbuf_t) :
    erase b1 = erase b2 ↔
      b1.capacity = b2.capacity ∧ b1.start_off = b2.start_off ∧ b1.end_off = b2.end_off := by
  unfold erase
  constructor
  · intro h
    injection h with h1 h2 h3 h4
    exact ⟨h2, h3, h4⟩
  · rintro ⟨h1, h2, h3⟩
    rw [h1, h2, h3]

theorem grow_erase (b : quicly_ringbuf_t) (m : Nat) (a : Alloc) :
    (quicly_ringbuf_grow b m a).map (fun r => (r.1, erase r.2)) =
      (quicly_ringbuf_grow (erase b) m (alloc_erase a)).map (fun r => (r.1, erase r.2)) := by
  unfold quicly_ringbuf_grow
  simp only [erase]
  cases hN : grow_new_size (m + 1) b.capacity (2 * b.capacity) m with
  | none => rfl
  | some N =>
    cases a with
    | fail => rfl
    | ok fresh =>
      simp only [alloc_erase, realloc]
      split_ifs <;> rfl

theorem push_unfold (b : quicly_ringbuf_t) (src : List Nat) (a : Alloc) :
    quicly_ringbuf_push b src a =
      (if quicly_ringbuf_available b < src.length then
          quicly_ringbuf_grow b (src.length - quicly_ringbuf_available b) a
        else some (0, b)).bind
        (fun r => if r.1 ≠ 0 then some (r.1, r.2) else some (0, push_copy r.2 src)) := by
  unfold quicly_ringbuf_push push_copy ring_write wrap_once
  simp only []
  cases h : (if quicly_ringbuf_available b < src.length then
      quicly_ringbuf_grow b (src.length - quicly_ringbuf_available b) a else some (0, b)) with
  | none => rfl
  | some r =>
    obtain ⟨ret, g⟩ := r
    simp only [Option.some_bind]
    split_ifs <;> rfl

theorem push_copy_erase (g g2 : quicly_ringbuf_t) (src : List Nat)
    (h : erase g = erase g2) : erase (push_copy g src) = erase (push_copy g2 src) := by
  obtain ⟨h1, h2, h3⟩ := (erase_eq_iff g g2).mp h
  simp only [erase, push_copy, h1, h2, h3]

theorem push_erase (b : quicly_ringbuf_t) (src : List Nat) (a : Alloc) :
    (quicly_ringbuf_push b src a).map (fun r => (r.1, erase r.2)) =
      (quicly_ringbuf_push (erase b) src (alloc_erase a)).map (fun r => (r.1, erase r.2)) := by
  have hav : quicly_ringbuf_available (erase b) = quicly_ringbuf_available b := rfl
  rw [push_unfold, push_unfold, hav]
  have hg : ∀ (o1 o2 : Option (Int × quicly_ringbuf_t)),
      o1.map (fun r => (r.1, erase r.2)) = o2.map (fun r => (r.1, erase r.2)) →
      (o1.bind (fun r => if r.1 ≠ 0 then some (r.1, r.2) else some (0, push_copy r.2 src))).map
          (fun r => (r.1, erase r.2)) =
        (o2.bind (fun r => if r.1 ≠ 0 then some (r.1, r.2)
          else some (0, push_copy r.2 src))).map (fun r => (r.1, erase r.2)) := by
    intro o1 o2 h
    cases o1 with
    | none =>
      cases o2 with
      | none => rfl
      | some r2 => simp at h
    | some r1 =>
      cases o2 with
      | none => simp at h
      | some r2 =>
        obtain ⟨ret1, g1⟩ := r1
        obtain ⟨ret2, g2⟩ := r2
        simp only [Option.map_some', Option.some.injEq, Prod.mk.injEq] at h
        obtain ⟨hr, he⟩ := h
        subst hr
        simp only [Option.some_bind]
        split_ifs
        · simp only [Option.map_some', he]
        · simp only [Option.map_some', push_copy_erase g1 g2 src he]
  apply hg
  by_cases hneed : quicly_ringbuf_available b < src.length
  · simp only [if_pos hneed]
    exact grow_erase b _ a
  · simp only [if_neg hneed]
    rfl

theorem shift_erase (b : quicly_ringbuf_t) (n : Nat) :
    erase (quicly_ringbuf_shift b n) = erase (quicly_ringbuf_shift (erase b) n) := by
  unfold quicly_ringbuf_shift erase
  simp only []
  split_ifs <;> rfl

theorem run_erase (ops : List Op) (b : quicly_ringbuf_t) :
    (run b ops).map erase = (run (erase b) (ops.map op_erase)).map erase := by
  have gen : ∀ (ops : List Op) (b1 b2 : quicly_ringbuf_t), erase b1 = erase b2 →
      (run b1 ops).map erase = (run b2 (ops.map op_erase)).map erase := by
    intro ops
    induction ops with
    | nil =>
      intro b1 b2 h
      simpa [run] using h
    | cons op ops ih =>
      intro b1 b2 h
      cases op with
      | push src a =>
        simp only [List.map_cons, op_erase, run]
        have h1 := push_erase b1 src a
        have h2 := push_erase b2 src (alloc_erase a)
        have hae : alloc_erase (alloc_erase a) = alloc_erase a := by cases a <;> rfl
        rw [hae, ← h] at h2
        rw [← h2] at h1
        cases hp1 : quicly_ringbuf_push b1 src a with
        | none =>
          rw [hp1] at h1
          cases hp2 : quicly_ringbuf_push b2 src (alloc_erase a) with
          | none => rfl
          | some r2 => rw [hp2] at h1; simp at h1
        | some r1 =>
          rw [hp1] at h1
          cases hp2 : quicly_ringbuf_push b2 src (alloc_erase a) with
          | none => rw [hp2] at h1; simp at h1
          | some r2 =>
            rw [hp2] at h1
            obtain ⟨ret1, g1⟩ := r1
            obtain ⟨ret2, g2⟩ := r2
            simp only [Option.map_some', Option.some.injEq, Prod.mk.injEq] at h1
            obtain ⟨hr, he⟩ := h1
            subst hr
            simp only []
            split_ifs
            · exact ih g1 g2 he
            · rfl
      | shift n =>
        simp only [List.map_cons, op_erase, run]
        have hu : quicly_ringbuf_used b1 = quicly_ringbuf_used b2 := by
          obtain ⟨h1, h2, h3⟩ := (erase_eq_iff b1 b2).mp h
          unfold quicly_ringbuf_used; rw [h1, h2, h3]
        rw [hu]
        split_ifs
        · apply ih
          rw [shift_erase b1, shift_erase b2, h]
        · rfl
  exact gen ops b (erase b) rfl


theorem pushed_bytes_replicate (n : Nat) (src : List Nat) (a : Alloc) :
    pushed_bytes (List.replicate n (Op.push src a)) = (List.replicate n src).flatten := by
  induction n with
  | zero => rfl
  | succ n ih => simp [List.replicate_succ, pushed_bytes, ih]

theorem shifted_total_replicate (n : Nat) (src : List Nat) (a : Alloc) :
    shifted_total (List.replicate n (Op.push src a)) = 0 := by
  induction n with
  | zero => rfl
  | succ n ih => simp [List.replicate_succ, shifted_total, ih]

theorem growth_succeeds_replicate (n : Nat) (src : List Nat) (fresh : Nat → Nat) :
    growth_succeeds (List.replicate n (Op.push src (Alloc.ok fresh))) := by
  induction n with
  | zero => trivial
  | succ n ih => exact ⟨fun h => Alloc.noConfusion h, ih⟩

theorem shifts_within_replicate (n u : Nat) (src : List Nat) (a : Alloc) :
    shifts_within u (List.replicate n (Op.push src a)) := by
  induction n generalizing u with
  | zero => trivial
  | succ n ih => exact ih _

theorem emit_window (b : quicly_ringbuf_t) (off : Nat) (dst : List Nat) (len : Nat)
    (w : List Nat) (hwf : WellFormed b) (hlen : off + len ≤ quicly_ringbuf_used b)
    (hw : w.length = len) (hp : ∀ i, i < len → logical_byte b (off + i) = w[i]?) :
    quicly_ringbuf_emit b off dst len = some
      { ret := 0, dst := w ++ dst.drop len, len := len,
        wrote_all := if off + len < quicly_ringbuf_used b then 0 else 1 } := by
  obtain ⟨W, hW, hWl, hWp⟩ := emit_spec b off dst len hwf (by omega)
  have e : min len (quicly_ringbuf_used b - off) = len := by omega
  rw [e] at hW hWl hWp
  have hWw : W = w := by
    apply List.ext_getElem?
    intro i
    by_cases hi : i < len
    · rw [hWp i hi, hp i hi]
    · rw [List.getElem?_eq_none (by omega), List.getElem?_eq_none (by omega)]
  rw [hW, hWw]

theorem repr_emit_window (b : quicly_ringbuf_t) (q : List Nat) (off : Nat) (dst : List Nat)
    (len : Nat) (hr : Repr b q) (hlen : off + len ≤ q.length) :
    quicly_ringbuf_emit b off dst len = some
      { ret := 0, dst := (q.drop off).take len ++ dst.drop len, len := len,
        wrote_all := if off + len < q.length then 0 else 1 } := by
  obtain ⟨hwf, hu, hq⟩ := hr
  rw [← hu]
  apply emit_window b off dst len _ hwf (by omega)
  · rw [List.length_take, List.length_drop]; omega
  · intro i hi
    rw [hq _ (by omega), List.getElem?_take_of_lt hi, List.getElem?_drop]


theorem emit_at_used (b : quicly_ringbuf_t) (dst : List Nat) (N : Nat) (hwf : WellFormed b) :
    quicly_ringbuf_emit b (quicly_ringbuf_used b) dst N =
      some { ret := 0, dst := dst, len := 0, wrote_all := 1 } := by
  obtain ⟨W, hW, hWl, -⟩ := emit_spec b (quicly_ringbuf_used b) dst N hwf (le_refl _)
  have e : min N (quicly_ringbuf_used b - quicly_ringbuf_used b) = 0 := by omega
  rw [e] at hW hWl
  have hW0 : W = [] := List.length_eq_zero.mp hWl
  rw [hW, hW0, if_neg (by omega)]
  simp

theorem run_erase_eq (ops : List Op) (b b' e e' : quicly_ringbuf_t) (opsz : List Op)
    (hrun : run b ops = some b') (he : erase b = e) (hops : ops.map op_erase = opsz)
    (hz : (run e opsz).map erase = some e') : erase b' = e' := by
  have h := run_erase ops b
  rw [hrun, he, hops, hz] at h
  simpa using h

theorem push_eq_set_all (b : quicly_ringbuf_t) (src : List Nat) (a : Alloc)
    (hwf : WellFormed b) :
    quicly_ringbuf_push b src a = quicly_ringbuf_set b (quicly_ringbuf_used b) src a := by
  have hav := available_eq b hwf
  have hu := used_lt_capacity b hwf
  by_cases hroom : src.length ≤ quicly_ringbuf_available b
  · exact push_eq_set_nogrow b src a a hwf hroom
  · cases a with
    | fail =>
      rw [push_fail b src hwf.2.1 (by omega), set_fail b _ src hwf.2.1 (by omega)]
    | ok fresh =>
      have hm : src.length - quicly_ringbuf_available b =
          quicly_ringbuf_used b + src.length + 1 - b.capacity := by omega
      obtain ⟨g, hg, hgwf, hgcap, -, -, hgu, -⟩ :=
        grow_ok b (src.length - quicly_ringbuf_available b) fresh hwf
      have hgav := available_eq g hgwf
      have hgroom : src.length ≤ quicly_ringbuf_available g := by omega
      rw [push_grow_eq b g src _ (Alloc.ok fresh) (by omega) hg hgroom,
        push_eq_set_nogrow g src _ (Alloc.ok fresh) hgwf hgroom, hgu]
      rw [hm] at hg
      exact (set_grow_eq b g _ src _ (Alloc.ok fresh) (by omega) hg (by omega)).symm

theorem ring_invariant_of_offsets (b : quicly_ringbuf_t) (hc : 1 ≤ b.capacity)
    (hs : b.start_off < b.capacity) (he : b.end_off < b.capacity) : ring_invariant b := by
  refine ⟨hc, hs, he, ?_⟩
  unfold quicly_ringbuf_used
  split_ifs <;> omega

theorem available_of_offsets (b : quicly_ringbuf_t) (hs : b.start_off < b.capacity)
    (he : b.end_off < b.capacity) :
    quicly_ringbuf_available b = b.capacity - quicly_ringbuf_used b - 1 := by
  unfold quicly_ringbuf_available quicly_ringbuf_used
  split_ifs <;> omega

theorem grow_invariant (b g : quicly_ringbuf_t) (m : Nat) (a : Alloc) (hinv : ring_invariant b)
    (h : quicly_ringbuf_grow b m a = some (0, g)) :
    ring_invariant g ∧ b.capacity + m ≤ g.capacity ∧
      quicly_ringbuf_used g = quicly_ringbuf_used b := by
  obtain ⟨hc, hs, he, -⟩ := hinv
  obtain ⟨N, k, hN, -, -, hm, -, h2⟩ := grow_capacity b.capacity m hc
  unfold quicly_ringbuf_grow at h
  simp only [hN] at h
  cases a with
  | fail => simp [realloc] at h
  | ok fresh =>
    simp only [realloc] at h
    split_ifs at h with hw
    · simp only [Option.some.injEq, Prod.mk.injEq, true_and] at h
      subst h
      refine ⟨ring_invariant_of_offsets _ (by simp only []; omega) (by simp only []; omega)
        (by simp only []; omega), by simp only []; omega, ?_⟩
      unfold quicly_ringbuf_used
      simp only []
      rw [if_neg (by omega), if_neg (by omega)]; omega
    · simp only [Option.some.injEq, Prod.mk.injEq, true_and] at h
      subst h
      refine ⟨ring_invariant_of_offsets _ (by simp only []; omega) (by simp only []; omega)
        (by simp only []; omega), by simp only []; omega, ?_⟩
      unfold quicly_ringbuf_used
      simp only []
      rw [if_pos (by omega), if_pos (by omega)]

theorem push_copy_invariant (g : quicly_ringbuf_t) (src : List Nat) (hinv : ring_invariant g)
    (hroom : src.length ≤ quicly_ringbuf_available g) : ring_invariant (push_copy g src) := by
  have hav := available_of_offsets g hinv.2.1 hinv.2.2.1
  obtain ⟨hc, hs, he, hu⟩ := hinv
  apply ring_invariant_of_offsets
  · exact hc
  · exact hs
  · simp only [push_copy, wrap_once]
    split_ifs <;> omega

theorem push_invariant (b b' : quicly_ringbuf_t) (src : List Nat) (a : Alloc)
    (hinv : ring_invariant b) (h : quicly_ringbuf_push b src a = some (0, b')) :
    ring_invariant b' := by
  have hav := available_of_offsets b hinv.2.1 hinv.2.2.1
  rw [push_unfold] at h
  by_cases hneed : quicly_ringbuf_available b < src.length
  · rw [if_pos hneed] at h
    cases hg : quicly_ringbuf_grow b (src.length - quicly_ringbuf_available b) a with
    | none => simp [hg] at h
    | some r =>
      obtain ⟨ret, g⟩ := r
      simp only [hg, Option.some_bind] at h
      split_ifs at h with hret
      · simp only [Option.some.injEq, Prod.mk.injEq] at h
        exact absurd h.1 hret
      · have hret0 : ret = 0 := not_not.mp hret
        subst hret0
        simp only [Option.some.injEq, Prod.mk.injEq, true_and] at h
        subst h
        obtain ⟨hginv, hgcap, hgu⟩ := grow_invariant b g _ a hinv hg
        have hgav := available_of_offsets g hginv.2.1 hginv.2.2.1
        have hub := hinv.2.2.2
        have hc := hinv.1
        have hroom : src.length ≤ quicly_ringbuf_available g := by
          rw [hgav, hgu]
          rw [hav] at hgcap hneed
          omega
        exact push_copy_invariant g src hginv hroom
  · rw [if_neg hneed] at h
    simp only [Option.some_bind, ne_eq, not_true_eq_false, if_false, Option.some.injEq,
      Prod.mk.injEq, true_and] at h
    subst h
    exact push_copy_invariant b src hinv (by omega)

theorem set_nogrow_invariant (b b' : quicly_ringbuf_t) (off : Nat) (src : List Nat) (a : Alloc)
    (hinv : ring_invariant b) (hcap : off + src.length + 1 ≤ b.capacity)
    (h : quicly_ringbuf_set b off src a = some (0, b')) : ring_invariant b' := by
  obtain ⟨hc, hs, he, hu⟩ := hinv
  rw [set_nogrow_eq b off src a hcap] at h
  simp only [Option.some.injEq, Prod.mk.injEq, true_and] at h
  subst h
  apply ring_invariant_of_offsets
  · exact hc
  · exact hs
  · simp only [wrap_once]
    split_ifs <;> omega

theorem set_invariant (b b' : quicly_ringbuf_t) (off : Nat) (src : List Nat) (a : Alloc)
    (hinv : ring_invariant b) (h : quicly_ringbuf_set b off src a = some (0, b')) :
    ring_invariant b' := by
  by_cases hcap : off + src.length + 1 ≤ b.capacity
  · exact set_nogrow_invariant b b' off src a hinv hcap h
  · cases a with
    | fail =>
      rw [set_fail b off src hinv.1 (by omega)] at h
      simp at h
    | ok fresh =>
      obtain ⟨N, k, hN, -⟩ := grow_capacity b.capacity (off + src.length + 1 - b.capacity) hinv.1
      obtain ⟨g, hg, -⟩ := grow_capacity_eq b _ N fresh hN
      obtain ⟨hginv, hgcap, -⟩ := grow_invariant b g _ _ hinv hg
      have hroom : off + src.length + 1 ≤ g.capacity := by omega
      rw [set_grow_eq b g off src _ (Alloc.ok fresh) (by omega) hg hroom] at h
      exact set_nogrow_invariant g b' off src _ hginv hroom h

theorem shift_invariant (b : quicly_ringbuf_t) (n : Nat) (hinv : ring_invariant b)
    (hn : n ≤ quicly_ringbuf_used b) : ring_invariant (quicly_ringbuf_shift b n) := by
  obtain ⟨hc, hs, he, hu⟩ := hinv
  unfold quicly_ringbuf_shift
  simp only []
  split_ifs
  · exact ring_invariant_of_offsets _ hc (by simp only []; omega) he
  · exact ring_invariant_of_offsets _ hc (by simp only []; omega) he

theorem invariant_calls_return (b : quicly_ringbuf_t) (m off : Nat) (src : List Nat)
    (fresh : Nat → Nat) (hinv : ring_invariant b) :
    (∃ g, quicly_ringbuf_grow b m (Alloc.ok fresh) = some (0, g)) ∧
    (∃ b', quicly_ringbuf_push b src (Alloc.ok fresh) = some (0, b')) ∧
    (∃ b', quicly_ringbuf_set b off src (Alloc.ok fresh) = some (0, b')) := by
  have hgrow : ∀ m, ∃ g, quicly_ringbuf_grow b m (Alloc.ok fresh) = some (0, g) := by
    intro m
    obtain ⟨N, k, hN, -⟩ := grow_capacity b.capacity m hinv.1
    obtain ⟨g, hg, -⟩ := grow_capacity_eq b m N fresh hN
    exact ⟨g, hg⟩
  refine ⟨hgrow m, ?_, ?_⟩
  · rw [push_unfold]
    by_cases hneed : quicly_ringbuf_available b < src.length
    · obtain ⟨g, hg⟩ := hgrow (src.length - quicly_ringbuf_available b)
      rw [if_pos hneed, hg]
      exact ⟨push_copy g src, by simp⟩
    · rw [if_neg hneed]
      exact ⟨push_copy b src, by simp⟩
  · by_cases hcap : off + src.length + 1 ≤ b.capacity
    · exact ⟨_, set_nogrow_eq b off src _ hcap⟩
    · obtain ⟨g, hg⟩ := hgrow (off + src.length + 1 - b.capacity)
      obtain ⟨-, hgcap, -⟩ := grow_invariant b g _ _ hinv hg
      have hroom : off + src.length + 1 ≤ g.capacity := by omega
      rw [set_grow_eq b g off src _ (Alloc.ok fresh) (by omega) hg hroom]
      exact ⟨_, set_nogrow_eq g off src _ hroom⟩


theorem add64_eq (x y : Nat) (h : x + y < 2 ^ 64) : add64 x y = x + y := by
  unfold add64; exact Nat.mod_eq_of_lt h

theorem sub64_eq (x y : Nat) (hy : y ≤ x) (hx : x < 2 ^ 64) : sub64 x y = x - y := by
  unfold sub64
  have e : x + 2 ^ 64 - y = (x - y) + 2 ^ 64 := by omega
  rw [e, Nat.add_mod_right, Nat.mod_eq_of_lt (by omega)]

/-- Where no sum of the function body reaches `2 ^ 64`, `quicly_ringbuf_emit` computed with the
arithmetic of a 64-bit `size_t` is `quicly_ringbuf_emit` computed on natural numbers. -/
theorem emit64_eq_emit (b : quicly_ringbuf_t) (off : Nat) (dst : List Nat) (len : Nat)
    (hwf : WellFormed b) (hcap : b.capacity ≤ 2 ^ 63) (hoff : off ≤ quicly_ringbuf_used b)
    (hlen : off + len < 2 ^ 64) :
    quicly_ringbuf_emit64 b off dst len = quicly_ringbuf_emit b off dst len := by
  have hu := used_lt_capacity b hwf
  obtain ⟨-, hc, hs, he⟩ := hwf
  have h1 : add64 off len = off + len := add64_eq _ _ hlen
  have h2 : sub64 (quicly_ringbuf_used b) off = quicly_ringbuf_used b - off :=
    sub64_eq _ _ hoff (by omega)
  have h3 : add64 b.start_off off = b.start_off + off := add64_eq _ _ (by omega)
  have hn : (if off + len < quicly_ringbuf_used b then ((len, 0) : Nat × Int)
      else (quicly_ringbuf_used b - off, 1)).1 ≤ quicly_ringbuf_used b - off := by
    split_ifs
    · simp only []; omega
    · simp only []; omega
  generalize hN : (if off + len < quicly_ringbuf_used b then ((len, 0) : Nat × Int)
      else (quicly_ringbuf_used b - off, 1)) = lw at hn
  have h4 : add64 (b.start_off + off) lw.1 = b.start_off + off + lw.1 :=
    add64_eq _ _ (by omega)
  have h5 : (if b.start_off + off ≥ b.capacity then sub64 (b.start_off + off) b.capacity
      else b.start_off + off) = wrap_once (b.start_off + off) b.capacity := by
    unfold wrap_once
    split_ifs with h
    · exact sub64_eq _ _ h (by omega)
    · rfl
  have h6 : (if b.start_off + off + lw.1 ≥ b.capacity then
      sub64 (b.start_off + off + lw.1) b.capacity
      else b.start_off + off + lw.1) = wrap_once (b.start_off + off + lw.1) b.capacity := by
    unfold wrap_once
    split_ifs with h
    · exact sub64_eq _ _ h (by omega)
    · rfl
  have h7 : sub64 b.capacity (wrap_once (b.start_off + off) b.capacity) =
      b.capacity - wrap_once (b.start_off + off) b.capacity := by
    apply sub64_eq _ _ _ (by omega)
    unfold wrap_once; split_ifs <;> omega
  unfold quicly_ringbuf_emit64 quicly_ringbuf_emit
  simp only [h1, h2, h3, hN, h4, h5, h6, h7]
  rfl

theorem grow_new_size64_mono (fuel old_size new_size m r : Nat)
    (h : grow_new_size64 fuel old_size new_size m = some r) :
    grow_new_size64 (fuel + 1) old_size new_size m = some r := by
  induction fuel generalizing new_size with
  | zero => simp [grow_new_size64] at h
  | succ k ih =>
    unfold grow_new_size64 at h ⊢
    split_ifs at h ⊢ with hc
    · exact ih _ h
    · exact h

theorem grow_new_size64_stuck (fuel old_size m : Nat) (h : sub64 0 old_size < m) :
    grow_new_size64 fuel old_size 0 m = none := by
  induction fuel with
  | zero => rfl
  | succ k ih =>
    unfold grow_new_size64
    rw [if_pos h]
    exact ih

theorem grow_new_size64_none (k old_size new_size m : Nat)
    (hz : (new_size * 2 ^ k) % 2 ^ 64 = 0) (hn : new_size < 2 ^ 64)
    (h : grow_new_size64 (k + 1) old_size new_size m = none) (fuel : Nat) :
    grow_new_size64 fuel old_size new_size m = none := by
  induction k generalizing new_size fuel with
  | zero =>
    have h0 : new_size = 0 := by
      rw [pow_zero, Nat.mul_one, Nat.mod_eq_of_lt hn] at hz
      exact hz
    subst h0
    unfold grow_new_size64 at h
    split_ifs at h with hc
    exact grow_new_size64_stuck fuel old_size m hc
  | succ k ih =>
    unfold grow_new_size64 at h
    split_ifs at h with hc
    have hz2 : (mul64 new_size 2 * 2 ^ k) % 2 ^ 64 = 0 := by
      unfold mul64
      rw [Nat.mod_mul_mod, Nat.mul_assoc, ← pow_succ']
      exact hz
    have hn2 : mul64 new_size 2 < 2 ^ 64 := Nat.mod_lt _ (by positivity)
    cases fuel with
    | zero => rfl
    | succ f =>
      unfold grow_new_size64
      rw [if_pos hc]
      exact ih _ hz2 hn2 h f

/-- The 64 evaluations of the loop condition that `quicly_ringbuf_grow64` allows are enough:
if the loop has not left within them it never leaves, and if it leaves at all it leaves within
them, with the same value. -/
theorem grow_new_size64_fuel_adequate (old_size m : Nat) :
    (grow_new_size64 64 old_size (mul64 2 old_size) m = none →
      ∀ fuel, grow_new_size64 fuel old_size (mul64 2 old_size) m = none) ∧
    (∀ fuel r, grow_new_size64 fuel old_size (mul64 2 old_size) m = some r →
      grow_new_size64 64 old_size (mul64 2 old_size) m = some r) := by
  have hz : (mul64 2 old_size * 2 ^ 63) % 2 ^ 64 = 0 := by
    unfold mul64
    rw [Nat.mod_mul_mod]
    have e : 2 * old_size * 2 ^ 63 = old_size * 2 ^ 64 := by ring
    rw [e]
    exact Nat.mul_mod_left _ _
  have hn : mul64 2 old_size < 2 ^ 64 := Nat.mod_lt _ (by positivity)
  have hnone := grow_new_size64_none 63 old_size (mul64 2 old_size) m hz hn
  refine ⟨hnone, ?_⟩
  intro fuel r hr
  cases h64 : grow_new_size64 64 old_size (mul64 2 old_size) m with
  | none => rw [hnone h64 fuel] at hr; cases hr
  | some r2 =>
    have up : ∀ d f v, grow_new_size64 f old_size (mul64 2 old_size) m = some v →
        grow_new_size64 (f + d) old_size (mul64 2 old_size) m = some v := by
      intro d
      induction d with
      | zero => intro f v h; exact h
      | succ d ih => intro f v h; exact grow_new_size64_mono _ _ _ _ _ (ih f v h)
    have a1 := up fuel 64 r2 h64
    have a2 := up 64 fuel r hr
    rw [Nat.add_comm] at a2
    rw [a1] at a2
    exact a2


theorem used64_eq_used (b : quicly_ringbuf_t) (hs : b.start_off ≤ b.capacity)
    (he : b.end_off < b.capacity) (hc : b.capacity < 2 ^ 64) :
    quicly_ringbuf_used64 b = quicly_ringbuf_used b := by
  unfold quicly_ringbuf_used64 quicly_ringbuf_used
  split_ifs with h
  · exact sub64_eq _ _ h (by omega)
  · rw [sub64_eq _ _ hs hc, add64_eq _ _ (by omega)]

theorem grow_new_size64_eq (fuel f2 old new m N : Nat)
    (h : grow_new_size fuel old new m = some N) (hN : N < 2 ^ 64) (hold : old ≤ new)
    (hnew : 1 ≤ new) (hf : N < new * 2 ^ f2) :
    grow_new_size64 f2 old new m = some N := by
  induction fuel generalizing new f2 with
  | zero => simp [grow_new_size] at h
  | succ fuel ih =>
    obtain ⟨k, hk, -, -⟩ := grow_new_size_spec _ _ _ _ _ h
    have hle : new ≤ N := by
      rw [hk]; exact Nat.le_mul_of_pos_right _ (by positivity)
    have hsub : sub64 new old = new - old := sub64_eq _ _ hold (by omega)
    rw [grow_new_size] at h
    split_ifs at h with hlt
    · obtain ⟨k2, hk2, -, -⟩ := grow_new_size_spec _ _ _ _ _ h
      have hle2 : new * 2 ≤ N := by
        rw [hk2]; exact Nat.le_mul_of_pos_right _ (by positivity)
      cases f2 with
      | zero => simp at hf; omega
      | succ f =>
        unfold grow_new_size64
        rw [hsub, if_pos hlt]
        have hmul : mul64 new 2 = new * 2 := Nat.mod_eq_of_lt (by omega)
        rw [hmul]
        refine ih f (new * 2) h (by omega) (by omega) ?_
        have e : new * 2 ^ (f + 1) = new * 2 * 2 ^ f := by rw [pow_succ]; ring
        rw [← e]; exact hf
    · simp only [Option.some.injEq] at h
      cases f2 with
      | zero => simp at hf; omega
      | succ f =>
        unfold grow_new_size64
        rw [hsub, if_neg hlt, h]

theorem grow_new_size_bound (c m N : Nat) (hc : 1 ≤ c)
    (hN : grow_new_size (m + 1) c (2 * c) m = some N) :
    2 * c ≤ N ∧ (N ≤ 2 * c ∨ N < 2 * (m + c)) := by
  obtain ⟨N', k, hN', hk, hk1, -, hj, h2⟩ := grow_capacity c m hc
  rw [hN] at hN'
  simp only [Option.some.injEq] at hN'
  subst hN'
  refine ⟨h2, ?_⟩
  rcases Nat.lt_or_ge k 2 with h | h
  · left
    have : k = 1 := by omega
    subst this
    rw [hk]; omega
  · right
    have := hj (k - 1) (by omega) (by omega)
    have e : c * 2 ^ k = 2 * (c * 2 ^ (k - 1)) := by
      obtain ⟨j, rfl⟩ : ∃ j, k = j + 1 := ⟨k - 1, by omega⟩
      rw [pow_succ]; simp only [Nat.add_sub_cancel]; ring
    rw [hk, e]
    omega

/-- Where the doubling stays below `2 ^ 64`, `quicly_ringbuf_grow` computed with the arithmetic
of a 64-bit `size_t` is `quicly_ringbuf_grow` computed on natural numbers. -/
theorem grow64_eq_grow (b : quicly_ringbuf_t) (m : Nat) (a : Alloc)
    (hc : 1 ≤ b.capacity) (hs : b.start_off ≤ b.capacity)
    (hcap : b.capacity ≤ 2 ^ 62) (hm : m ≤ 2 ^ 62) :
    quicly_ringbuf_grow64 b m (realloc_outcome a) = quicly_ringbuf_grow b m a := by
  obtain ⟨N, k, hN, -⟩ := grow_capacity b.capacity m hc
  obtain ⟨h2, hb⟩ := grow_new_size_bound b.capacity m N hc hN
  have hlt : N < 2 ^ 64 := by omega
  have hmul : mul64 2 b.capacity = 2 * b.capacity := Nat.mod_eq_of_lt (by omega)
  have h64 : grow_new_size64 64 b.capacity (mul64 2 b.capacity) m = some N := by
    rw [hmul]
    refine grow_new_size64_eq _ 64 _ _ _ _ hN hlt (by omega) (by omega) ?_
    have : 1 ≤ (2 : Nat) ^ 64 := Nat.one_le_two_pow
    nlinarith
  unfold quicly_ringbuf_grow64 quicly_ringbuf_grow
  simp only [h64, hN]
  cases a with
  | fail => rfl
  | ok fresh =>
    simp only [realloc_outcome, realloc64, realloc]
    have e1 : sub64 b.capacity b.start_off = b.capacity - b.start_off :=
      sub64_eq _ _ hs (by omega)
    have e2 : sub64 N (b.capacity - b.start_off) = N - (b.capacity - b.start_off) :=
      sub64_eq _ _ (by omega) hlt
    have e3 : sub64 N b.capacity = N - b.capacity := sub64_eq _ _ (by omega) hlt
    have e4 : add64 b.start_off (N - b.capacity) = b.start_off + (N - b.capacity) :=
      add64_eq _ _ (by omega)
    simp only [e1, e2, e3, e4]

theorem set64_grow_eq (b g : quicly_ringbuf_t) (off : Nat) (src : List Nat) (a a' : Realloc)
    (hneed : add64 (add64 off src.length) 1 > b.capacity)
    (hg : quicly_ringbuf_grow64 b (sub64 (add64 (add64 off src.length) 1) b.capacity) a =
      some (0, g))
    (hroom : ¬ add64 (add64 off src.length) 1 > g.capacity) :
    quicly_ringbuf_set64 b off src a = quicly_ringbuf_set64 g off src a' := by
  unfold quicly_ringbuf_set64
  simp only [if_pos hneed, hg, if_neg hroom]

theorem set64_eq_set_nogrow (b : quicly_ringbuf_t) (off : Nat) (src : List Nat) (a : Realloc)
    (a' : Alloc) (hs : b.start_off < b.capacity) (he : b.end_off < b.capacity)
    (hcap : b.capacity ≤ 2 ^ 63) (hroom : off + src.length + 1 ≤ b.capacity) :
    quicly_ringbuf_set64 b off src a = quicly_ringbuf_set b off src a' := by
  have h1 : add64 off src.length = off + src.length := add64_eq _ _ (by omega)
  have h2 : add64 (off + src.length) 1 = off + src.length + 1 := add64_eq _ _ (by omega)
  have h3 : add64 b.start_off off = b.start_off + off := add64_eq _ _ (by omega)
  have h4 : add64 (b.start_off + off) src.length = b.start_off + off + src.length :=
    add64_eq _ _ (by omega)
  have h5 : (if b.start_off + off ≥ b.capacity then sub64 (b.start_off + off) b.capacity
      else b.start_off + off) = wrap_once (b.start_off + off) b.capacity := by
    unfold wrap_once
    split_ifs with h
    · exact sub64_eq _ _ h (by omega)
    · rfl
  have h6 : (if b.start_off + off + src.length ≥ b.capacity then
      sub64 (b.start_off + off + src.length) b.capacity
      else b.start_off + off + src.length) =
        wrap_once (b.start_off + off + src.length) b.capacity := by
    unfold wrap_once
    split_ifs with h
    · exact sub64_eq _ _ h (by omega)
    · rfl
  have h7 : sub64 b.capacity (wrap_once (b.start_off + off) b.capacity) =
      b.capacity - wrap_once (b.start_off + off) b.capacity := by
    apply sub64_eq _ _ _ (by omega)
    unfold wrap_once; split_ifs <;> omega
  have hu : ∀ d, quicly_ringbuf_used64 { b with data := d } = quicly_ringbuf_used b := by
    intro d
    exact used64_eq_used { b with data := d } (by simp only []; omega) he (by simp only []; omega)
  rw [set_nogrow_eq b off src a' hroom]
  unfold quicly_ringbuf_set64 ring_write
  simp only [h1, h2, if_neg (show ¬ off + src.length + 1 > b.capacity by omega)]
  simp only [ne_eq, not_true_eq_false, if_false, h3, h4, h5, h6, h7, hu]
  split_ifs <;> rfl

/-- Where `capacity` and `off + len + 1` are at most `2 ^ 62`, `quicly_ringbuf_set` computed with
the arithmetic of a 64-bit `size_t` is `quicly_ringbuf_set` computed on natural numbers. -/
theorem set64_eq_set (b : quicly_ringbuf_t) (off : Nat) (src : List Nat) (a : Alloc)
    (hwf : WellFormed b) (hcap : b.capacity ≤ 2 ^ 62) (hoff : off + src.length + 1 ≤ 2 ^ 62) :
    quicly_ringbuf_set64 b off src (realloc_outcome a) = quicly_ringbuf_set b off src a := by
  by_cases hroom : off + src.length + 1 ≤ b.capacity
  · exact set64_eq_set_nogrow b off src _ a hwf.2.2.1 hwf.2.2.2 (by omega) hroom
  · have h1 : add64 off src.length = off + src.length := add64_eq _ _ (by omega)
    have h2 : add64 (off + src.length) 1 = off + src.length + 1 := add64_eq _ _ (by omega)
    have h3 : sub64 (off + src.length + 1) b.capacity = off + src.length + 1 - b.capacity :=
      sub64_eq _ _ (by omega) (by omega)
    have hg64 := grow64_eq_grow b (off + src.length + 1 - b.capacity) a hwf.2.1
      (by have := hwf.2.2.1; omega) hcap (by omega)
    cases a with
    | fail =>
      rw [set_fail b off src hwf.2.1 (by omega)]
      rw [grow_fail b _ hwf.2.1] at hg64
      unfold quicly_ringbuf_set64
      simp only [h1, h2, h3, if_pos (show off + src.length + 1 > b.capacity by omega), hg64]
      simp
    | ok fresh =>
      obtain ⟨g, hg, hgwf, hgcap, -, -, -, -⟩ :=
        grow_ok b (off + src.length + 1 - b.capacity) fresh hwf
      obtain ⟨N, k, hN, -⟩ := grow_capacity b.capacity (off + src.length + 1 - b.capacity) hwf.2.1
      obtain ⟨-, hb⟩ := grow_new_size_bound b.capacity _ N hwf.2.1 hN
      obtain ⟨g', hg', hgN⟩ := grow_capacity_eq b _ N fresh hN
      rw [hg] at hg'
      simp only [Option.some.injEq, Prod.mk.injEq, true_and] at hg'
      subst hg'
      rw [hg] at hg64
      have hroom2 : off + src.length + 1 ≤ g.capacity := by omega
      rw [set_grow_eq b g off src _ (Alloc.ok fresh) (by omega) hg hroom2]
      rw [set64_grow_eq b g off src _ (Realloc.ok fresh) (by rw [h1, h2]; omega)
        (by rw [h1, h2, h3]; exact hg64) (by rw [h1, h2]; omega)]
      exact set64_eq_set_nogrow g off src _ _ hgwf.2.2.1 hgwf.2.2.2 (by omega) hroom2

/-- C1: FIFO refinement.  Start from `quicly_ringbuf_init` with a capacity of at least 1 and run
any sequence of `quicly_ringbuf_push` and `quicly_ringbuf_shift` calls.  If every push returns 0
and no shift exceeds `used()` at its moment (`run` returns the final buffer), then `used()` is
the number of bytes pushed minus the number of bytes shifted, and
`quicly_ringbuf_emit (off = 0, len = used())` returns 0, all `used()` bytes, `wrote_all = 1`, and
copies into `dst` exactly the concatenation of the pushed sequences without the shifted prefix.
Such runs exist for every sequence whose allocations succeed and whose shifts stay within the
bytes pushed and not yet shifted. -/
theorem fifo_refinement (buf : quicly_ringbuf_t) (start_size : Nat) (fresh : Nat → Nat)
    (ops : List Op) (dst : List Nat) (hcap : 1 ≤ start_size) :
    (quicly_ringbuf_init buf start_size (Alloc.ok fresh)).1 = 0 ∧
    (∀ b, run (quicly_ringbuf_init buf start_size (Alloc.ok fresh)).2 ops = some b →
      quicly_ringbuf_used b = (pushed_bytes ops).length - shifted_total ops ∧
      quicly_ringbuf_emit b 0 dst (quicly_ringbuf_used b) =
        some { ret := 0, dst := fifo_spec ops ++ dst.drop (quicly_ringbuf_used b),
               len := quicly_ringbuf_used b, wrote_all := 1 }) ∧
    (growth_succeeds ops → shifts_within 0 ops →
      ∃ b, run (quicly_ringbuf_init buf start_size (Alloc.ok fresh)).2 ops = some b) := by
  obtain ⟨b0, hb0, hwf, -, -, -, hu⟩ := init_ok buf start_size fresh hcap
  have hr0 : Repr b0 [] := ⟨hwf, hu, fun i hi => absurd hi (by simp)⟩
  rw [hb0]
  refine ⟨rfl, ?_, ?_⟩
  · intro b hb
    obtain ⟨hr, -⟩ := repr_run ops b0 b [] hr0 hb
    rw [List.nil_append] at hr
    refine ⟨by rw [hr.2.1, List.length_drop], ?_⟩
    exact repr_emit b _ dst hr
  · intro hg hs
    exact run_total ops b0 [] hr0 hg hs

theorem fifo_refinement_witness :
    1 ≤ 4 ∧
    run (quicly_ringbuf_init ⟨[], 0, 0, 0⟩ 4 (Alloc.ok (fun _ => 0))).2
        [Op.push [1, 2, 3] Alloc.fail, Op.shift 2, Op.push [4, 5] Alloc.fail,
          Op.push [6, 7, 8] (Alloc.ok (fun _ => 0))]
      = some ⟨[5, 6, 7, 8, 0, 0, 3, 4], 8, 6, 4⟩ ∧
    quicly_ringbuf_used ⟨[5, 6, 7, 8, 0, 0, 3, 4], 8, 6, 4⟩ = 8 - 2 ∧
    quicly_ringbuf_emit ⟨[5, 6, 7, 8, 0, 0, 3, 4], 8, 6, 4⟩ 0 [0, 0, 0, 0, 0, 0, 9]
        (quicly_ringbuf_used ⟨[5, 6, 7, 8, 0, 0, 3, 4], 8, 6, 4⟩) =
      some { ret := 0, dst := [3, 4, 5, 6, 7, 8] ++ [9], len := 6, wrote_all := 1 } :=
  ⟨by decide, by decide,
    ((fifo_refinement ⟨[], 0, 0, 0⟩ 4 (fun _ => 0)
      [Op.push [1, 2, 3] Alloc.fail, Op.shift 2, Op.push [4, 5] Alloc.fail,
        Op.push [6, 7, 8] (Alloc.ok (fun _ => 0))]
      [0, 0, 0, 0, 0, 0, 9] (by decide)).2.1 ⟨[5, 6, 7, 8, 0, 0, 3, 4], 8, 6, 4⟩ (by decide)).1,
    ((fifo_refinement ⟨[], 0, 0, 0⟩ 4 (fun _ => 0)
      [Op.push [1, 2, 3] Alloc.fail, Op.shift 2, Op.push [4, 5] Alloc.fail,
        Op.push [6, 7, 8] (Alloc.ok (fun _ => 0))]
      [0, 0, 0, 0, 0, 0, 9] (by decide)).2.1 ⟨[5, 6, 7, 8, 0, 0, 3, 4], 8, 6, 4⟩ (by decide)).2⟩

/-- C2 fails on the code (the claim is right, the comparison in the code wraps; it is the defect
of C29): on the well-formed buffer with storage `[10, ..., 17]`, capacity 8, `start_off = 1`,
`end_off = 6` (five bytes stored), `quicly_ringbuf_emit` with `off = 2` and `len = 2 ^ 64 - 1`
computes `off + len = 1` modulo `2 ^ 64`, takes the branch `off + *len < data_available`, and
returns the length `2 ^ 64 - 1` with `wrote_all = 0`, where `min(len, used() - off)` is 3; the
two `memcpy` copy seven bytes, of which only the first three are the bytes stored from `off`
on. -/
theorem emit64_length_not_clamped :
    WellFormed ⟨[10, 11, 12, 13, 14, 15, 16, 17], 8, 1, 6⟩ ∧
    quicly_ringbuf_used ⟨[10, 11, 12, 13, 14, 15, 16, 17], 8, 1, 6⟩ = 5 ∧
    min (2 ^ 64 - 1) (quicly_ringbuf_used ⟨[10, 11, 12, 13, 14, 15, 16, 17], 8, 1, 6⟩ - 2) = 3 ∧
    quicly_ringbuf_emit64 ⟨[10, 11, 12, 13, 14, 15, 16, 17], 8, 1, 6⟩ 2 [0, 0, 0, 0, 0, 0, 0, 0]
        (2 ^ 64 - 1) =
      some { ret := 0, dst := [13, 14, 15, 16, 17, 10, 11, 0], len := 2 ^ 64 - 1,
             wrote_all := 0 } := by
  decide!

/-- C4: on a well-formed buffer with `off < used()`, a window that ends exactly at the last stored
byte (`off + len = used()`) is returned in full (`len` bytes, the logical bytes from `off`) with
`wrote_all = 1`, and a window that ends before it (`off + len < used()`) is returned in full with
`wrote_all = 0`. -/
theorem emit_wrote_all_as_tested (b : quicly_ringbuf_t) (off : Nat) (dst : List Nat) (len : Nat)
    (hwf : WellFormed b) (hoff : off < quicly_ringbuf_used b) :
    (off + len = quicly_ringbuf_used b →
      ∃ r, quicly_ringbuf_emit b off dst len = some r ∧ r.ret = 0 ∧ r.len = len ∧
        r.wrote_all = 1 ∧ ∀ i, i < len → r.dst[i]? = logical_byte b (off + i)) ∧
    (off + len < quicly_ringbuf_used b →
      ∃ r, quicly_ringbuf_emit b off dst len = some r ∧ r.ret = 0 ∧ r.len = len ∧
        r.wrote_all = 0 ∧ ∀ i, i < len → r.dst[i]? = logical_byte b (off + i)) := by
  obtain ⟨W, hW, hWl, hWp⟩ := emit_spec b off dst len hwf (by omega)
  constructor
  · intro h
    have e : min len (quicly_ringbuf_used b - off) = len := by omega
    rw [e] at hWl hWp
    refine ⟨_, hW, rfl, e, by simp only []; rw [if_neg (by omega)], ?_⟩
    intro i hi
    simp only []
    rw [List.getElem?_append_left (by omega), hWp i hi]
  · intro h
    have e : min len (quicly_ringbuf_used b - off) = len := by omega
    rw [e] at hWl hWp
    refine ⟨_, hW, rfl, e, by simp only []; rw [if_pos (by omega)], ?_⟩
    intro i hi
    simp only []
    rw [List.getElem?_append_left (by omega), hWp i hi]

theorem emit_wrote_all_as_tested_witness :
    WellFormed ⟨[10, 11, 12, 13], 4, 2, 1⟩ ∧ 1 < quicly_ringbuf_used ⟨[10, 11, 12, 13], 4, 2, 1⟩ ∧
    1 + 2 = quicly_ringbuf_used ⟨[10, 11, 12, 13], 4, 2, 1⟩ ∧
    1 + 1 < quicly_ringbuf_used ⟨[10, 11, 12, 13], 4, 2, 1⟩ ∧
    (∃ r, quicly_ringbuf_emit ⟨[10, 11, 12, 13], 4, 2, 1⟩ 1 [0, 0] 2 = some r ∧ r.ret = 0 ∧
      r.len = 2 ∧ r.wrote_all = 1 ∧
      ∀ i, i < 2 → r.dst[i]? = logical_byte ⟨[10, 11, 12, 13], 4, 2, 1⟩ (1 + i)) ∧
    (∃ r, quicly_ringbuf_emit ⟨[10, 11, 12, 13], 4, 2, 1⟩ 1 [0, 0] 1 = some r ∧ r.ret = 0 ∧
      r.len = 1 ∧ r.wrote_all = 0 ∧
      ∀ i, i < 1 → r.dst[i]? = logical_byte ⟨[10, 11, 12, 13], 4, 2, 1⟩ (1 + i)) :=
  ⟨by decide, by decide, by decide, by decide,
    (emit_wrote_all_as_tested ⟨[10, 11, 12, 13], 4, 2, 1⟩ 1 [0, 0] 2 (by decide) (by decide)).1
      (by decide),
    (emit_wrote_all_as_tested ⟨[10, 11, 12, 13], 4, 2, 1⟩ 1 [0, 0] 1 (by decide) (by decide)).2
      (by decide)⟩

/-- C5 fails on the code (the claim is right, the comparison in the code wraps; it is the defect
of C29): on the well-formed buffer with storage `[10, 11, 12, 13]`, capacity 4, `start_off = 2`,
`end_off = 1` (three bytes stored), `quicly_ringbuf_emit` with `off = used() = 3` and
`N = 2 ^ 64 - 1` computes `off + N = 2` modulo `2 ^ 64`, takes the branch
`off + *len < data_available`, and returns the length `2 ^ 64 - 1` with `wrote_all = 0` after
copying the three bytes 11, 12, 13 into `dst`, where the claim has length 0, `wrote_all = 1` and
no byte copied. -/
theorem emit64_at_end_overflow :
    WellFormed ⟨[10, 11, 12, 13], 4, 2, 1⟩ ∧
    quicly_ringbuf_used ⟨[10, 11, 12, 13], 4, 2, 1⟩ = 3 ∧
    quicly_ringbuf_emit64 ⟨[10, 11, 12, 13], 4, 2, 1⟩
        (quicly_ringbuf_used ⟨[10, 11, 12, 13], 4, 2, 1⟩) [0, 0, 0, 0] (2 ^ 64 - 1) =
      some { ret := 0, dst := [11, 12, 13, 0], len := 2 ^ 64 - 1, wrote_all := 0 } := by
  decide!

/-- C6 fails on the code (the claim is right, the test for growth in the code wraps): on the
well-formed buffer with storage `[10, 11, 12, 13]`, capacity 4, `start_off = 2`, `end_off = 1`
(three bytes stored), `quicly_ringbuf_set` with `off = 2 ^ 64 - 1` and one byte of data computes
`off + len + 1 = 1` and `off + len = 0` modulo `2 ^ 64`: it asks for no growth, whatever the
allocator would answer, writes the byte at the physical offset 1, returns 0 and leaves `end_off`
as it was, so `used()` is still 3 where the claim has `max(used_before, off + len) = 2 ^ 64`. -/
theorem set64_used_overflow :
    WellFormed ⟨[10, 11, 12, 13], 4, 2, 1⟩ ∧
    quicly_ringbuf_used ⟨[10, 11, 12, 13], 4, 2, 1⟩ = 3 ∧
    (∀ a, quicly_ringbuf_set64 ⟨[10, 11, 12, 13], 4, 2, 1⟩ (2 ^ 64 - 1) [99] a =
      some (0, ⟨[10, 99, 12, 13], 4, 2, 1⟩)) ∧
    quicly_ringbuf_used ⟨[10, 99, 12, 13], 4, 2, 1⟩ = 3 ∧
    max (quicly_ringbuf_used ⟨[10, 11, 12, 13], 4, 2, 1⟩) (2 ^ 64 - 1 + [99].length) = 2 ^ 64 := by
  refine ⟨by decide, by decide, ?_, by decide, by decide!⟩
  intro a
  rfl

/-- C7 fails on the code (the claim is right, the test for growth in the code wraps; it is the
defect of C6): on the well-formed buffer with storage `[10, 11, 12, 13]`, capacity 4,
`start_off = 2`, `end_off = 1` (three bytes stored), `quicly_ringbuf_set` with
`off = 2 ^ 64 - 2` and the one byte 99 computes `off + len + 1 = 0` modulo `2 ^ 64`, asks for no
growth, whatever the allocator would answer, and writes 99 at the physical offset
`start_off + off = 0` modulo `2 ^ 64`, returning 0.  That offset holds the logical byte 2, a
stored byte (`2 < used_before = 3`) outside `[off, off + len)`, which was 10 and is now 99. -/
theorem set64_overwrites_stored_byte :
    WellFormed ⟨[10, 11, 12, 13], 4, 2, 1⟩ ∧
    2 < quicly_ringbuf_used ⟨[10, 11, 12, 13], 4, 2, 1⟩ ∧
    ¬ (2 ^ 64 - 2 ≤ 2 ∧ 2 < 2 ^ 64 - 2 + [99].length) ∧
    (∀ a, quicly_ringbuf_set64 ⟨[10, 11, 12, 13], 4, 2, 1⟩ (2 ^ 64 - 2) [99] a =
      some (0, ⟨[99, 11, 12, 13], 4, 2, 1⟩)) ∧
    logical_byte ⟨[10, 11, 12, 13], 4, 2, 1⟩ 2 = some 10 ∧
    logical_byte ⟨[99, 11, 12, 13], 4, 2, 1⟩ 2 = some 99 := by
  refine ⟨by decide, by decide, by decide!, ?_, by decide, by decide⟩
  intro a
  rfl

/-- C8 fails on the code (the claim is right, the doubling in the code wraps): on the well-formed
buffer with storage `[10, 11, 12, 13]`, capacity 4, `start_off = 0`, `end_off = 3` (three bytes
stored, logical byte 0 is 10), the loop of `quicly_ringbuf_grow` for
`min_grow_amount = 2 ^ 63` doubles `new_size` up to `2 ^ 63`, then to 0 modulo `2 ^ 64`, and
leaves with `new_size = 0`.  The call is then `realloc (data, 0)`: if it returns a block, grow
returns 0 with capacity 0 and a storage of no bytes, so no logical byte is left although
`end_off - start_off` is still 3; if it returns `NULL` after releasing the block, grow returns -1
and the storage is gone as well.  For `min_grow_amount = 2 ^ 64 - 1` the loop has not left after
any number of evaluations of its condition, so the call does not return, whatever the allocator
would answer. -/
theorem grow64_loses_data :
    WellFormed ⟨[10, 11, 12, 13], 4, 0, 3⟩ ∧
    quicly_ringbuf_used ⟨[10, 11, 12, 13], 4, 0, 3⟩ = 3 ∧
    logical_byte ⟨[10, 11, 12, 13], 4, 0, 3⟩ 0 = some 10 ∧
    grow_new_size64 64 4 (mul64 2 4) (2 ^ 63) = some 0 ∧
    (∀ fresh, quicly_ringbuf_grow64 ⟨[10, 11, 12, 13], 4, 0, 3⟩ (2 ^ 63) (Realloc.ok fresh) =
      some (0, ⟨[], 0, 0, 3⟩)) ∧
    logical_byte ⟨[], 0, 0, 3⟩ 0 = none ∧
    quicly_ringbuf_grow64 ⟨[10, 11, 12, 13], 4, 0, 3⟩ (2 ^ 63) Realloc.released =
      some (-1, ⟨[], 4, 0, 3⟩) ∧
    (∀ fuel, grow_new_size64 fuel 4 (mul64 2 4) (2 ^ 64 - 1) = none) ∧
    (∀ a, quicly_ringbuf_grow64 ⟨[10, 11, 12, 13], 4, 0, 3⟩ (2 ^ 64 - 1) a = none) := by
  have h64 : grow_new_size64 64 4 (mul64 2 4) (2 ^ 64 - 1) = none := by decide!
  have h63 : grow_new_size64 64 4 (mul64 2 4) (2 ^ 63) = some 0 := by decide!
  refine ⟨by decide, by decide, by decide, h63, ?_, by decide, by decide!,
    (grow_new_size64_fuel_adequate 4 (2 ^ 64 - 1)).1 h64, ?_⟩
  · intro fresh
    unfold quicly_ringbuf_grow64
    simp only [h63]
    rfl
  · intro a
    unfold quicly_ringbuf_grow64
    simp only [h64]

/-- C9: for a buffer of capacity `c >= 1` and any `min_grow_amount = m`, a `quicly_ringbuf_grow`
whose allocation succeeds returns 0 and sets the capacity to `c * 2 ^ k`, `k >= 1` being the least
exponent with `c * 2 ^ k - c >= m`; so the capacity at least doubles, does not shrink, and grows
by at least `m`. -/
theorem grow_policy (b : quicly_ringbuf_t) (m : Nat) (fresh : Nat → Nat)
    (hc : 1 ≤ b.capacity) :
    ∃ b' k, quicly_ringbuf_grow b m (Alloc.ok fresh) = some (0, b') ∧
      b'.capacity = b.capacity * 2 ^ k ∧ 1 ≤ k ∧ m ≤ b.capacity * 2 ^ k - b.capacity ∧
      (∀ j, 1 ≤ j → j < k → ¬ m ≤ b.capacity * 2 ^ j - b.capacity) ∧
      2 * b.capacity ≤ b'.capacity ∧ b.capacity ≤ b'.capacity ∧
      m ≤ b'.capacity - b.capacity := by
  obtain ⟨N, k, hN, hk, hk1, hm, hj, h2⟩ := grow_capacity b.capacity m hc
  obtain ⟨b', hb', hcap⟩ := grow_capacity_eq b m N fresh hN
  refine ⟨b', k, hb', by rw [hcap, hk], hk1, by rw [← hk]; exact hm, ?_, by omega, by omega,
    by omega⟩
  intro j h1 h2
  have := hj j h1 h2
  omega

theorem grow_policy_witness :
    1 ≤ 4 ∧
    ∃ b' k, quicly_ringbuf_grow ⟨[10, 11, 12, 13], 4, 2, 1⟩ 5 (Alloc.ok (fun _ => 0)) =
        some (0, b') ∧
      b'.capacity = 4 * 2 ^ k ∧ 1 ≤ k ∧ 5 ≤ 4 * 2 ^ k - 4 ∧
      (∀ j, 1 ≤ j → j < k → ¬ 5 ≤ 4 * 2 ^ j - 4) ∧
      2 * 4 ≤ b'.capacity ∧ 4 ≤ b'.capacity ∧ 5 ≤ b'.capacity - 4 :=
  ⟨by decide, grow_policy ⟨[10, 11, 12, 13], 4, 2, 1⟩ 5 (fun _ => 0) (by decide)⟩

/-- C10 fails on the code (the claim is right, the doubling in the code wraps; it is the defect of
C8): on the buffer with storage `[10, ..., 17]`, capacity 8, `start_off = 6`, `end_off = 3`, the
loop of `quicly_ringbuf_grow` for `min_grow_amount = 2 ^ 63` leaves with `new_size = 0`, so the
reallocation is `realloc (data, 0)`.  Where that call releases the block and returns `NULL`, as
the GNU C library does, grow takes it for a failure, stores the old pointer back and returns -1:
`capacity`, `start_off` and `end_off` are unchanged, but the storage `data` points to has been
released, so the buffer is not the one before the call. -/
theorem grow64_failure_releases_storage :
    grow_new_size64 64 8 (mul64 2 8) (2 ^ 63) = some 0 ∧
    quicly_ringbuf_grow64 ⟨[10, 11, 12, 13, 14, 15, 16, 17], 8, 6, 3⟩ (2 ^ 63) Realloc.released =
      some (-1, ⟨[], 8, 6, 3⟩) ∧
    (⟨[], 8, 6, 3⟩ : quicly_ringbuf_t) ≠ ⟨[10, 11, 12, 13, 14, 15, 16, 17], 8, 6, 3⟩ := by
  decide!

/-- C11 fails on the code (the claim is right, the doubling in the code wraps; it is the defect of
C8): on the well-formed buffer with storage `[10, 11, 12, 13]`, capacity 4, `start_off = 2`,
`end_off = 1`, `quicly_ringbuf_set` with `off = 2 ^ 64 - 3` and one byte of data needs to grow
(`off + len + 1 = 2 ^ 64 - 1 > 4`, no wrap here) and calls `quicly_ringbuf_grow` with
`2 ^ 64 - 5`, whose loop leaves with `new_size = 0`.  Where `realloc (data, 0)` releases the
block and returns `NULL`, as the GNU C library does, the growth fails and set returns -1, a
failing case; the offsets and the capacity are unchanged but the stored bytes have been
released. -/
theorem set64_failure_releases_storage :
    WellFormed ⟨[10, 11, 12, 13], 4, 2, 1⟩ ∧
    2 ^ 64 - 3 + [99].length + 1 < 2 ^ 64 ∧
    2 ^ 64 - 3 + [99].length + 1 > 4 ∧
    grow_new_size64 64 4 (mul64 2 4) (2 ^ 64 - 3 + [99].length + 1 - 4) = some 0 ∧
    quicly_ringbuf_set64 ⟨[10, 11, 12, 13], 4, 2, 1⟩ (2 ^ 64 - 3) [99] Realloc.released =
      some (-1, ⟨[], 4, 2, 1⟩) ∧
    (⟨[], 4, 2, 1⟩ : quicly_ringbuf_t) ≠ ⟨[10, 11, 12, 13], 4, 2, 1⟩ := by
  decide!

/-- C12: in every state with `capacity >= 1`, `start_off < capacity` and `end_off < capacity`,
`quicly_ringbuf_used` is `(end_off - start_off) mod capacity`, `quicly_ringbuf_available` is
`capacity - used() - 1`, and so `used() + available() = capacity - 1`: the capacity less the one
reserved slot. -/
theorem space_accounting (b : quicly_ringbuf_t) (hc : 1 ≤ b.capacity)
    (hs : b.start_off < b.capacity) (he : b.end_off < b.capacity) :
    (quicly_ringbuf_used b : Int) = ((b.end_off : Int) - (b.start_off : Int)) % (b.capacity : Int) ∧
    quicly_ringbuf_used b = (b.end_off + b.capacity - b.start_off) % b.capacity ∧
    quicly_ringbuf_available b = b.capacity - quicly_ringbuf_used b - 1 ∧
    quicly_ringbuf_used b + quicly_ringbuf_available b = b.capacity - 1 := by
  unfold quicly_ringbuf_used quicly_ringbuf_available
  by_cases h : b.end_off ≥ b.start_off
  · rw [if_pos h, if_neg (by omega)]
    refine ⟨?_, ?_, by omega, by omega⟩
    · rw [Int.emod_eq_of_lt (by omega) (by omega)]; omega
    · have e : b.end_off + b.capacity - b.start_off = (b.end_off - b.start_off) + b.capacity := by
        omega
      rw [e, Nat.add_mod_right, Nat.mod_eq_of_lt (by omega)]
  · rw [if_neg h, if_pos (by omega)]
    refine ⟨?_, ?_, by omega, by omega⟩
    · rw [← Int.add_emod_self, Int.emod_eq_of_lt (by omega) (by omega)]; omega
    · rw [Nat.mod_eq_of_lt (by omega)]; omega

theorem space_accounting_witness :
    1 ≤ 4 ∧ 2 < 4 ∧ 1 < 4 ∧
    (quicly_ringbuf_used ⟨[10, 11, 12, 13], 4, 2, 1⟩ : Int) = ((1 : Int) - 2) % 4 ∧
    quicly_ringbuf_used ⟨[10, 11, 12, 13], 4, 2, 1⟩ = (1 + 4 - 2) % 4 ∧
    quicly_ringbuf_available ⟨[10, 11, 12, 13], 4, 2, 1⟩ =
      4 - quicly_ringbuf_used ⟨[10, 11, 12, 13], 4, 2, 1⟩ - 1 ∧
    quicly_ringbuf_used ⟨[10, 11, 12, 13], 4, 2, 1⟩ +
      quicly_ringbuf_available ⟨[10, 11, 12, 13], 4, 2, 1⟩ = 4 - 1 :=
  ⟨by decide, by decide, by decide,
    space_accounting ⟨[10, 11, 12, 13], 4, 2, 1⟩ (by decide) (by decide) (by decide)⟩

/-- C13: on a well-formed buffer, `quicly_ringbuf_shift (amount)` with `amount <= used()` sets
`start_off` to `(start_off + amount) mod capacity`, lowers `used()` by `amount`, makes the logical
byte `i` the former logical byte `i + amount` for every `i < used()`, and leaves `data`,
`capacity` and `end_off` as they were. -/
theorem shift_effect (b : quicly_ringbuf_t) (amount : Nat) (hwf : WellFormed b)
    (hn : amount ≤ quicly_ringbuf_used b) :
    (quicly_ringbuf_shift b amount).start_off = (b.start_off + amount) % b.capacity ∧
    quicly_ringbuf_used (quicly_ringbuf_shift b amount) = quicly_ringbuf_used b - amount ∧
    (∀ i, i < quicly_ringbuf_used (quicly_ringbuf_shift b amount) →
      (quicly_ringbuf_shift b amount).data[((quicly_ringbuf_shift b amount).start_off + i) %
          (quicly_ringbuf_shift b amount).capacity]? =
        b.data[(b.start_off + (i + amount)) % b.capacity]? ∧
      (b.start_off + (i + amount)) % b.capacity < b.data.length) ∧
    (quicly_ringbuf_shift b amount).data = b.data ∧
    (quicly_ringbuf_shift b amount).capacity = b.capacity ∧
    (quicly_ringbuf_shift b amount).end_off = b.end_off := by
  obtain ⟨-, h2, h3⟩ := shift_spec b amount hwf hn
  have hu := used_lt_capacity b hwf
  have hs := hwf.2.2.1
  refine ⟨?_, h2, ?_, ?_, ?_, ?_⟩
  · rw [mod_once _ _ (by omega)]
    unfold quicly_ringbuf_shift
    simp only []
    split_ifs <;> rfl
  · intro i _
    refine ⟨?_, logical_byte_lt b (i + amount) hwf⟩
    have := h3 i
    rw [Nat.add_comm amount i] at this
    exact this
  · unfold quicly_ringbuf_shift; simp only []; split_ifs <;> rfl
  · unfold quicly_ringbuf_shift; simp only []; split_ifs <;> rfl
  · unfold quicly_ringbuf_shift; simp only []; split_ifs <;> rfl

theorem shift_effect_witness :
    WellFormed ⟨[10, 11, 12, 13], 4, 2, 1⟩ ∧ 2 ≤ quicly_ringbuf_used ⟨[10, 11, 12, 13], 4, 2, 1⟩ ∧
    (quicly_ringbuf_shift ⟨[10, 11, 12, 13], 4, 2, 1⟩ 2).start_off = (2 + 2) % 4 ∧
    quicly_ringbuf_used (quicly_ringbuf_shift ⟨[10, 11, 12, 13], 4, 2, 1⟩ 2) =
      quicly_ringbuf_used ⟨[10, 11, 12, 13], 4, 2, 1⟩ - 2 ∧
    (∀ i, i < quicly_ringbuf_used (quicly_ringbuf_shift ⟨[10, 11, 12, 13], 4, 2, 1⟩ 2) →
      (quicly_ringbuf_shift ⟨[10, 11, 12, 13], 4, 2, 1⟩ 2).data[
          ((quicly_ringbuf_shift ⟨[10, 11, 12, 13], 4, 2, 1⟩ 2).start_off + i) %
          (quicly_ringbuf_shift ⟨[10, 11, 12, 13], 4, 2, 1⟩ 2).capacity]? =
        [10, 11, 12, 13][(2 + (i + 2)) % 4]? ∧
      (2 + (i + 2)) % 4 < 4) ∧
    (quicly_ringbuf_shift ⟨[10, 11, 12, 13], 4, 2, 1⟩ 2).data = [10, 11, 12, 13] ∧
    (quicly_ringbuf_shift ⟨[10, 11, 12, 13], 4, 2, 1⟩ 2).capacity = 4 ∧
    (quicly_ringbuf_shift ⟨[10, 11, 12, 13], 4, 2, 1⟩ 2).end_off = 1 :=
  ⟨by decide, by decide, shift_effect ⟨[10, 11, 12, 13], 4, 2, 1⟩ 2 (by decide) (by decide)⟩

/-- C14: on a well-formed buffer `quicly_ringbuf_used_one_block` is `min(used(), capacity -
start_off)`, the length of the run of stored bytes from `start_off` to `end_off` or to the
physical end of the storage; it is at most `used()`, and it differs from `used()` exactly when
`end_off < start_off` and `end_off > 0`. -/
theorem used_one_block_spec (b : quicly_ringbuf_t) (hwf : WellFormed b) :
    quicly_ringbuf_used_one_block b = min (quicly_ringbuf_used b) (b.capacity - b.start_off) ∧
    quicly_ringbuf_used_one_block b ≤ quicly_ringbuf_used b ∧
    (quicly_ringbuf_used_one_block b ≠ quicly_ringbuf_used b ↔
      b.end_off < b.start_off ∧ 0 < b.end_off) := by
  obtain ⟨-, hc, hs, he⟩ := hwf
  unfold quicly_ringbuf_used_one_block quicly_ringbuf_used
  split_ifs with h
  · refine ⟨by omega, by omega, ?_⟩
    constructor
    · intro h1; exact absurd rfl h1
    · intro h1; omega
  · refine ⟨by omega, by omega, ?_⟩
    constructor
    · intro h1; omega
    · intro h1; omega

theorem used_one_block_spec_witness :
    WellFormed ⟨[10, 11, 12, 13], 4, 2, 1⟩ ∧
    quicly_ringbuf_used_one_block ⟨[10, 11, 12, 13], 4, 2, 1⟩ =
      min (quicly_ringbuf_used ⟨[10, 11, 12, 13], 4, 2, 1⟩) (4 - 2) ∧
    quicly_ringbuf_used_one_block ⟨[10, 11, 12, 13], 4, 2, 1⟩ ≤
      quicly_ringbuf_used ⟨[10, 11, 12, 13], 4, 2, 1⟩ ∧
    (quicly_ringbuf_used_one_block ⟨[10, 11, 12, 13], 4, 2, 1⟩ ≠
      quicly_ringbuf_used ⟨[10, 11, 12, 13], 4, 2, 1⟩ ↔ 1 < 2 ∧ 0 < 1) :=
  ⟨by decide, used_one_block_spec ⟨[10, 11, 12, 13], 4, 2, 1⟩ (by decide)⟩

/-- C15: the reference scenario of `t/ringbuf.c` run on `lib/ringbuf.c`, with `test_data` the 19
bytes of the test, for any contents of the memory the allocator hands out and any destination
block `dst`.  After `init(128)` and ten pushes `used()` is 190 and `emit(19 * i, 19)` returns the
payload for `i < 10`, with `wrote_all = 0` for `i < 9` and 1 for `i = 9`; `shift(38)` then
`shift(114)` leave `used()` at 152 and then 38; ten more pushes give `used() = 228`,
`emit(0, 228)` returns twelve copies of the payload with `wrote_all = 1`, and
`used_one_block()` differs from `used()`; four more pushes give `used() = 304` and all sixteen
windows of 19 bytes are the payload; `set(128, payload)` leaves `used() = 304` and
`emit(128, 19)` returns the payload with `wrote_all = 0`; `set(512, payload)` gives
`used() = 531`, `emit(512, 19)` returns the payload with `wrote_all = 1` and `emit(0, 19)` the
payload with `wrote_all = 0`; `shift(512)` leaves `used() = 19` and `emit(19, 19)` returns
length 0 with `wrote_all = 1` and `dst` untouched. -/
theorem reference_scenario (buf : quicly_ringbuf_t) (fresh : Nat → Nat) (dst : List Nat) :
    (quicly_ringbuf_init buf 128 (Alloc.ok fresh)).1 = 0 ∧
    ∃ b10 b22 b26 b27 b28,
      run (quicly_ringbuf_init buf 128 (Alloc.ok fresh)).2
        (List.replicate 10 (Op.push test_data (Alloc.ok fresh))) = some b10 ∧
      quicly_ringbuf_used b10 = 190 ∧
      (∀ i, i < 10 → quicly_ringbuf_emit b10 (19 * i) dst 19 =
        some { ret := 0, dst := test_data ++ dst.drop 19, len := 19,
               wrote_all := if i < 9 then 0 else 1 }) ∧
      quicly_ringbuf_used (quicly_ringbuf_shift b10 38) = 152 ∧
      quicly_ringbuf_used (quicly_ringbuf_shift (quicly_ringbuf_shift b10 38) 114) = 38 ∧
      run (quicly_ringbuf_shift (quicly_ringbuf_shift b10 38) 114)
        (List.replicate 10 (Op.push test_data (Alloc.ok fresh))) = some b22 ∧
      quicly_ringbuf_used b22 = 228 ∧
      quicly_ringbuf_emit b22 0 dst 228 =
        some { ret := 0, dst := (List.replicate 12 test_data).flatten ++ dst.drop 228,
               len := 228, wrote_all := 1 } ∧
      quicly_ringbuf_used_one_block b22 ≠ quicly_ringbuf_used b22 ∧
      run b22 (List.replicate 4 (Op.push test_data (Alloc.ok fresh))) = some b26 ∧
      quicly_ringbuf_used b26 = 304 ∧
      (∀ i, i < 16 → quicly_ringbuf_emit b26 (19 * i) dst 19 =
        some { ret := 0, dst := test_data ++ dst.drop 19, len := 19,
               wrote_all := if i < 15 then 0 else 1 }) ∧
      quicly_ringbuf_set b26 128 test_data (Alloc.ok fresh) = some (0, b27) ∧
      quicly_ringbuf_used b27 = 304 ∧
      quicly_ringbuf_emit b27 128 dst 19 =
        some { ret := 0, dst := test_data ++ dst.drop 19, len := 19, wrote_all := 0 } ∧
      quicly_ringbuf_set b27 512 test_data (Alloc.ok fresh) = some (0, b28) ∧
      quicly_ringbuf_used b28 = 531 ∧
      quicly_ringbuf_emit b28 512 dst 19 =
        some { ret := 0, dst := test_data ++ dst.drop 19, len := 19, wrote_all := 1 } ∧
      quicly_ringbuf_emit b28 0 dst 19 =
        some { ret := 0, dst := test_data ++ dst.drop 19, len := 19, wrote_all := 0 } ∧
      quicly_ringbuf_used (quicly_ringbuf_shift b28 512) = 19 ∧
      quicly_ringbuf_emit (quicly_ringbuf_shift b28 512) 19 dst 19 =
        some { ret := 0, dst := dst, len := 0, wrote_all := 1 } := by
  -- facts about the pushed bytes, by evaluation
  have c10 : ∀ i, i < 10 →
      (((List.replicate 10 test_data).flatten.drop (19 * i)).take 19 = test_data ∧
        (19 * i + 19 < (List.replicate 10 test_data).flatten.length ↔ i < 9)) := by decide!
  have c12 : List.drop 114 (List.drop 38 (List.replicate 10 test_data).flatten) ++
      (List.replicate 10 test_data).flatten = (List.replicate 12 test_data).flatten := by decide!
  have c16 : (List.replicate 12 test_data).flatten ++ (List.replicate 4 test_data).flatten =
      (List.replicate 16 test_data).flatten := by decide!
  have d16 : ∀ i, i < 16 →
      (((List.replicate 16 test_data).flatten.drop (19 * i)).take 19 = test_data ∧
        (19 * i + 19 < (List.replicate 16 test_data).flatten.length ↔ i < 15)) := by decide!
  have p16 : ∀ i, i < 19 → (List.replicate 16 test_data).flatten[i]? = test_data[i]? := by
    decide!
  have l10 : (List.replicate 10 test_data).flatten.length = 190 := by decide!
  have l12 : (List.replicate 12 test_data).flatten.length = 228 := by decide!
  have l16 : (List.replicate 16 test_data).flatten.length = 304 := by decide!
  have t12 : (List.drop 0 (List.replicate 12 test_data).flatten).take 228 =
      (List.replicate 12 test_data).flatten := by decide!
  -- the offsets, by evaluation of the calls on a buffer without contents
  have z10 : (run ⟨[], 128, 0, 0⟩
      (List.replicate 10 (Op.push test_data (Alloc.ok (fun _ => 0))))).map erase =
      some ⟨[], 256, 0, 190⟩ := by decide!
  have hopsz : ∀ n, (List.replicate n (Op.push test_data (Alloc.ok fresh))).map op_erase =
      List.replicate n (Op.push test_data (Alloc.ok (fun _ => 0))) := by
    intro n; rw [List.map_replicate]; rfl
  -- init
  obtain ⟨b0, hb0, hwf0, hc0, hs0, he0, hu0⟩ := init_ok buf 128 fresh (by decide)
  have hr0 : Repr b0 [] := ⟨hwf0, hu0, fun i hi => absurd hi (by simp)⟩
  have e0 : erase b0 = ⟨[], 128, 0, 0⟩ :=
    (erase_eq_iff b0 ⟨[], 128, 0, 0⟩).mpr ⟨hc0, hs0, he0⟩
  rw [hb0]
  refine ⟨rfl, ?_⟩
  simp only []
  -- ten pushes
  obtain ⟨b10, h10⟩ := run_total _ b0 [] hr0 (growth_succeeds_replicate 10 test_data fresh)
    (shifts_within_replicate 10 _ test_data _)
  have hr10 := (repr_run _ b0 b10 [] hr0 h10).1
  rw [pushed_bytes_replicate, shifted_total_replicate, List.nil_append, List.drop_zero] at hr10
  have e10 := run_erase_eq _ b0 b10 _ _ _ h10 e0 (hopsz 10) z10
  -- two shifts
  have hr11 := repr_shift b10 _ 38 hr10 (by rw [hr10.2.1, l10]; decide)
  have hu11 : quicly_ringbuf_used (quicly_ringbuf_shift b10 38) = 152 := by
    rw [hr11.2.1, List.length_drop, l10]
  have hr12 := repr_shift _ _ 114 hr11 (by rw [hu11]; decide)
  have hu12 : quicly_ringbuf_used (quicly_ringbuf_shift (quicly_ringbuf_shift b10 38) 114) = 38 := by
    rw [hr12.2.1, List.length_drop, List.length_drop, l10]
  have e12 : erase (quicly_ringbuf_shift (quicly_ringbuf_shift b10 38) 114) =
      erase (quicly_ringbuf_shift (quicly_ringbuf_shift ⟨[], 256, 0, 190⟩ 38) 114) := by
    rw [shift_erase, shift_erase b10, e10, ← shift_erase]
  -- ten more pushes
  obtain ⟨b22, h22⟩ := run_total _ _ _ hr12 (growth_succeeds_replicate 10 test_data fresh)
    (shifts_within_replicate 10 _ test_data _)
  have hr22 := (repr_run _ _ b22 _ hr12 h22).1
  rw [pushed_bytes_replicate, shifted_total_replicate, List.drop_zero, c12] at hr22
  have e22 : erase b22 = ⟨[], 256, 152, 124⟩ := by
    have h := run_erase (List.replicate 10 (Op.push test_data (Alloc.ok fresh)))
      (quicly_ringbuf_shift (quicly_ringbuf_shift b10 38) 114)
    rw [h22, e12, hopsz 10] at h
    have hz : (run (erase (quicly_ringbuf_shift
        (quicly_ringbuf_shift ⟨[], 256, 0, 190⟩ 38) 114))
        (List.replicate 10 (Op.push test_data (Alloc.ok (fun _ => 0))))).map erase =
        some ⟨[], 256, 152, 124⟩ := by decide!
    rw [hz] at h
    simpa using h
  -- four more pushes
  obtain ⟨b26, h26⟩ := run_total _ _ _ hr22 (growth_succeeds_replicate 4 test_data fresh)
    (shifts_within_replicate 4 _ test_data _)
  have hr26 := (repr_run _ _ b26 _ hr22 h26).1
  rw [pushed_bytes_replicate, shifted_total_replicate, List.drop_zero, c16] at hr26
  have hu26 : quicly_ringbuf_used b26 = 304 := by rw [hr26.2.1, l16]
  -- the two sets
  obtain ⟨b27, h27, hwf27, -, hu27, hw27, hk27⟩ :=
    set_ok b26 128 test_data (Alloc.ok fresh) hr26.1 (Or.inr (fun h => Alloc.noConfusion h))
  have hu27' : quicly_ringbuf_used b27 = 304 := by rw [hu27, hu26]; decide
  obtain ⟨b28, h28, hwf28, -, hu28, hw28, hk28⟩ :=
    set_ok b27 512 test_data (Alloc.ok fresh) hwf27 (Or.inr (fun h => Alloc.noConfusion h))
  have hu28' : quicly_ringbuf_used b28 = 531 := by rw [hu28, hu27']; decide
  obtain ⟨hwf29, hu29, -⟩ := shift_spec b28 512 hwf28 (by rw [hu28']; decide)
  have hu29' : quicly_ringbuf_used (quicly_ringbuf_shift b28 512) = 19 := by
    rw [hu29, hu28']
  refine ⟨b10, b22, b26, b27, b28, h10, by rw [hr10.2.1, l10], ?_, hu11, hu12, h22,
    by rw [hr22.2.1, l12], ?_, ?_, h26, hu26, ?_, h27, hu27', ?_, h28, hu28', ?_, ?_, hu29', ?_⟩
  · intro i hi
    rw [repr_emit_window b10 _ (19 * i) dst 19 hr10 (by rw [l10]; omega), (c10 i hi).1]
    by_cases h9 : i < 9
    · rw [if_pos ((c10 i hi).2.mpr h9), if_pos h9]
    · rw [if_neg (fun h => h9 ((c10 i hi).2.mp h)), if_neg h9]
  · rw [repr_emit_window b22 _ 0 dst 228 hr22 (by rw [l12]), t12, l12]
    rfl
  · have h1 : quicly_ringbuf_used_one_block b22 = quicly_ringbuf_used_one_block (erase b22) := rfl
    have h2 : quicly_ringbuf_used b22 = quicly_ringbuf_used (erase b22) := rfl
    rw [h1, h2, e22]
    decide
  · intro i hi
    rw [repr_emit_window b26 _ (19 * i) dst 19 hr26 (by rw [l16]; omega), (d16 i hi).1]
    by_cases h15 : i < 15
    · rw [if_pos ((d16 i hi).2.mpr h15), if_pos h15]
    · rw [if_neg (fun h => h15 ((d16 i hi).2.mp h)), if_neg h15]
  · rw [emit_window b27 128 dst 19 test_data hwf27 (by rw [hu27']; decide) rfl hw27, hu27']
    rfl
  · rw [emit_window b28 512 dst 19 test_data hwf28 (by rw [hu28']) rfl hw28, hu28']
    rfl
  · rw [emit_window b28 0 dst 19 test_data hwf28 (by rw [hu28']; decide) rfl ?_, hu28']
    · rfl
    · intro i hi
      have hi' : i < test_data.length := hi
      rw [Nat.zero_add, hk28 i (by rw [hu27']; omega) (by omega),
        hk27 i (by rw [hu26]; omega) (by omega), hr26.2.2 i (by rw [l16]; omega), p16 i hi]
  · have := emit_at_used (quicly_ringbuf_shift b28 512) dst 19 hwf29
    rw [hu29'] at this
    exact this

/-! ## The contract of `lib/streambuf.c` -/

/-- C16 fails on the code (the claim is right, the inline push is wrong): on a stream buffer
fresh from `quicly_streambuf_create`, `quicly_streambuf_egress_write` of the bytes `[1, 2]` and
then of `[3]`, followed by `quicly_streambuf_egress_emit` of 3 bytes at offset 0, yields
`[3, 2, 0]` (the second write over the first, then a byte that was never written) where the
claim asks for `[1, 2, 3]`, and the ring reports 1024 bytes in use. -/
theorem egress_round_trip_overwrites :
    ((quicly_streambuf_create none 64 64 513 (some ⟨⟨⟨[], 0, 0, 0⟩, 0⟩, ⟨[], 0, 0, 0⟩⟩)
        (Alloc.ok (fun _ => 0)) (Alloc.ok (fun _ => 0))).bind (fun r0 => r0.2.bind (fun s0 =>
      (quicly_streambuf_egress_write true s0 [1, 2] Alloc.fail 0).bind (fun r1 =>
        (quicly_streambuf_egress_write true r1.2 [3] Alloc.fail 0).bind (fun r2 =>
          (quicly_streambuf_egress_emit r2.2 0 [0, 0, 0] 3).map (fun r =>
            (r0.1, r1.1, r2.1, r, streambuf_h.quicly_ringbuf_used r2.2.egress.buf))))))) =
      some (0, 0, 0, { ret := 0, dst := [3, 2, 0], len := 3, wrote_all := 0 }, 1024) := by
  decide!


/-- C18 fails on the code (the claim is right, the code ignores the result of the push): on a
stream buffer fresh from `quicly_streambuf_create` (egress ring of capacity 1024), a
`quicly_streambuf_egress_write` of 1025 bytes whose growth cannot allocate makes the push return
-1, and yet the write returns 0 (the code of the engine call) and has raised
`egress.max_stream_data` from 0 to 1025. -/
theorem egress_write_ignores_push_failure :
    ((quicly_streambuf_create none 64 64 513 (some ⟨⟨⟨[], 0, 0, 0⟩, 0⟩, ⟨[], 0, 0, 0⟩⟩)
        (Alloc.ok (fun _ => 0)) (Alloc.ok (fun _ => 0))).bind (fun r0 => r0.2.bind (fun s0 =>
      (streambuf_h.quicly_ringbuf_push s0.egress.buf (List.replicate 1025 7) Alloc.fail).bind
        (fun p =>
          (quicly_streambuf_egress_write true s0 (List.replicate 1025 7) Alloc.fail 0).map
            (fun w => (p.1, w.1, s0.egress.max_stream_data, w.2.egress.max_stream_data,
              decide (w.2 = s0))))))) =
      some (-1, 0, 0, 1025, false) := by
  decide!

/-- C19 fails on the code (the claim is right, the code ignores the result of
`quicly_ringbuf_init`): when `malloc` gives the struct and both ring-buffer allocations fail,
each `quicly_ringbuf_init` returns -1 and `quicly_streambuf_create` returns 0, handing out a
stream buffer whose two rings have no storage.  (When `malloc` of the struct itself fails the
function does return `PTLS_ERROR_NO_MEMORY`.) -/
theorem create_ignores_init_failure (junk : quicly_streambuf_t) (sz : Nat)
    (PTLS_ERROR_NO_MEMORY : Int) :
    (streambuf_h.quicly_ringbuf_init junk.egress.buf 1024 Alloc.fail).1 = -1 ∧
    (streambuf_h.quicly_ringbuf_init junk.ingress 1024 Alloc.fail).1 = -1 ∧
    quicly_streambuf_create none (64 + sz) 64 PTLS_ERROR_NO_MEMORY (some junk)
        Alloc.fail Alloc.fail =
      some (0, some { egress := { buf := { junk.egress.buf with data := [] },
                                  max_stream_data := 0 },
                      ingress := { junk.ingress with data := [] } }) ∧
    quicly_streambuf_create none (64 + sz) 64 PTLS_ERROR_NO_MEMORY none
        Alloc.fail Alloc.fail = some (PTLS_ERROR_NO_MEMORY, none) := by
  refine ⟨rfl, rfl, ?_, ?_⟩
  · unfold quicly_streambuf_create
    rw [if_pos (by omega)]
    rfl
  · unfold quicly_streambuf_create
    rw [if_pos (by omega)]

/-- C20: `quicly_streambuf_ingress_receive` with `len = 0` returns 0 and leaves the stream buffer
as it is (no growth, `used()` of the ingress ring unchanged); with `len > 0` it returns what
`quicly_ringbuf_set (off, src, len)` returns on the ingress ring, the ingress ring after the call
is the one that set leaves, and the egress ring and `max_stream_data` are unchanged (and it
does not return when the set does not). -/
theorem ingress_receive_spec (sbuf : quicly_streambuf_t) (off : Nat) (src : List Nat)
    (a : Alloc) :
    (src.length = 0 → quicly_streambuf_ingress_receive sbuf off src a = some (0, sbuf)) ∧
    (0 < src.length → ∀ ret ingress,
      streambuf_h.quicly_ringbuf_set sbuf.ingress off src a = some (ret, ingress) →
      quicly_streambuf_ingress_receive sbuf off src a =
        some (ret, { egress := sbuf.egress, ingress := ingress })) ∧
    (0 < src.length → streambuf_h.quicly_ringbuf_set sbuf.ingress off src a = none →
      quicly_streambuf_ingress_receive sbuf off src a = none) := by
  unfold quicly_streambuf_ingress_receive
  refine ⟨?_, ?_, ?_⟩
  · intro h; rw [if_neg (by omega)]
  · intro h ret ingress hs; rw [if_pos (by omega), hs]
  · intro h hs; rw [if_pos (by omega), hs]

theorem ingress_receive_spec_witness :
    quicly_streambuf_ingress_receive ⟨⟨⟨[9], 1, 0, 0⟩, 5⟩, ⟨[10, 11, 12, 13], 4, 2, 3⟩⟩ 7 []
        Alloc.fail =
      some (0, ⟨⟨⟨[9], 1, 0, 0⟩, 5⟩, ⟨[10, 11, 12, 13], 4, 2, 3⟩⟩) ∧
    quicly_streambuf_ingress_receive ⟨⟨⟨[9], 1, 0, 0⟩, 5⟩, ⟨[10, 11, 12, 13], 4, 2, 3⟩⟩ 1 [1, 2]
        Alloc.fail =
      some (0, ⟨⟨⟨[9], 1, 0, 0⟩, 5⟩, ⟨[2, 11, 12, 1], 4, 2, 1⟩⟩) :=
  ⟨(ingress_receive_spec ⟨⟨⟨[9], 1, 0, 0⟩, 5⟩, ⟨[10, 11, 12, 13], 4, 2, 3⟩⟩ 7 []
      Alloc.fail).1 (by decide),
    (ingress_receive_spec ⟨⟨⟨[9], 1, 0, 0⟩, 5⟩, ⟨[10, 11, 12, 13], 4, 2, 3⟩⟩ 1 [1, 2]
      Alloc.fail).2.1 (by decide) 0 ⟨[2, 11, 12, 1], 4, 2, 1⟩ (by decide)⟩

/-- C21: the view that `quicly_streambuf_ingress_get` returns starts at the physical position
`start_off` of the ingress ring; its length is `quicly_ringbuf_used_one_block` of the ingress
ring when the receive state reports the transfer complete, otherwise
`received.ranges[0].end - data_off` when `data_off < received.ranges[0].end` and 0 when
`data_off >= received.ranges[0].end`; the stream buffer after the call is the one before it. -/
theorem ingress_get_view (sbuf : quicly_streambuf_t) (transfer_complete : Bool)
    (data_off ranges0_end : Nat) :
    (quicly_streambuf_ingress_get sbuf transfer_complete data_off ranges0_end).1.base =
      sbuf.ingress.start_off ∧
    (transfer_complete = true →
      (quicly_streambuf_ingress_get sbuf transfer_complete data_off ranges0_end).1.len =
        streambuf_h.quicly_ringbuf_used_one_block sbuf.ingress) ∧
    (transfer_complete = false → data_off < ranges0_end →
      (quicly_streambuf_ingress_get sbuf transfer_complete data_off ranges0_end).1.len =
        ranges0_end - data_off) ∧
    (transfer_complete = false → data_off ≥ ranges0_end →
      (quicly_streambuf_ingress_get sbuf transfer_complete data_off ranges0_end).1.len = 0) ∧
    (quicly_streambuf_ingress_get sbuf transfer_complete data_off ranges0_end).2 = sbuf := by
  unfold quicly_streambuf_ingress_get
  refine ⟨rfl, ?_, ?_, ?_, rfl⟩
  · intro h; simp only [h, if_true]
  · intro h h2; simp only [h, if_pos h2]; rfl
  · intro h h2; simp only [h, if_neg (show ¬ data_off < ranges0_end by omega)]; rfl

theorem ingress_get_view_witness :
    (quicly_streambuf_ingress_get ⟨⟨⟨[9], 1, 0, 0⟩, 5⟩, ⟨[10, 11, 12, 13], 4, 2, 1⟩⟩
      true 3 7).1.len = streambuf_h.quicly_ringbuf_used_one_block ⟨[10, 11, 12, 13], 4, 2, 1⟩ ∧
    (quicly_streambuf_ingress_get ⟨⟨⟨[9], 1, 0, 0⟩, 5⟩, ⟨[10, 11, 12, 13], 4, 2, 1⟩⟩
      false 3 5).1.len = 5 - 3 ∧
    (quicly_streambuf_ingress_get ⟨⟨⟨[9], 1, 0, 0⟩, 5⟩, ⟨[10, 11, 12, 13], 4, 2, 1⟩⟩
      false 5 5).1.len = 0 :=
  ⟨(ingress_get_view ⟨⟨⟨[9], 1, 0, 0⟩, 5⟩, ⟨[10, 11, 12, 13], 4, 2, 1⟩⟩ true 3 7).2.1 rfl,
    (ingress_get_view ⟨⟨⟨[9], 1, 0, 0⟩, 5⟩, ⟨[10, 11, 12, 13], 4, 2, 1⟩⟩ false 3 5).2.2.1 rfl
      (by decide),
    (ingress_get_view ⟨⟨⟨[9], 1, 0, 0⟩, 5⟩, ⟨[10, 11, 12, 13], 4, 2, 1⟩⟩ false 5 5).2.2.2.1 rfl
      (by decide)⟩

/-! ## The ring buffer of `include/quicly/streambuf.h` against the contract -/

/-- C22 fails on the code (the claim is right, the inline `quicly_ringbuf_used` is wrong): on the
buffer that `quicly_ringbuf_init (4)` of `include/quicly/streambuf.h` returns, where
`end_off = start_off = 0` and `(end_off - start_off) mod capacity = 0`, the function
`quicly_ringbuf_used` returns 4, the whole capacity, while `quicly_ringbuf_available` returns 4
as well, which is not `capacity - used()`. -/
theorem inline_used_of_empty :
    (streambuf_h.quicly_ringbuf_init ⟨[], 0, 0, 0⟩ 4 (Alloc.ok (fun _ => 0))) =
      (0, ⟨[0, 0, 0, 0], 4, 0, 0⟩) ∧
    ((0 : Int) - 0) % 4 = 0 ∧
    streambuf_h.quicly_ringbuf_used ⟨[0, 0, 0, 0], 4, 0, 0⟩ = 4 ∧
    streambuf_h.quicly_ringbuf_available ⟨[0, 0, 0, 0], 4, 0, 0⟩ = 4 ∧
    4 - streambuf_h.quicly_ringbuf_used ⟨[0, 0, 0, 0], 4, 0, 0⟩ = 0 := by
  decide

/-- C23 fails on the code (the claim is right, the inline functions are wrong): after
`quicly_ringbuf_init (128)` of `include/quicly/streambuf.h` has returned 0,
`quicly_ringbuf_used` is 128 and not 0, and after a `quicly_ringbuf_push` of 19 bytes that
returns 0 it is still 128, and 128 again after a second such push: the pushes do not change it. -/
theorem inline_used_not_tracked :
    (streambuf_h.quicly_ringbuf_init ⟨[], 0, 0, 0⟩ 128 (Alloc.ok (fun _ => 0))).1 = 0 ∧
    streambuf_h.quicly_ringbuf_used
      (streambuf_h.quicly_ringbuf_init ⟨[], 0, 0, 0⟩ 128 (Alloc.ok (fun _ => 0))).2 = 128 ∧
    ((streambuf_h.quicly_ringbuf_push
        (streambuf_h.quicly_ringbuf_init ⟨[], 0, 0, 0⟩ 128 (Alloc.ok (fun _ => 0))).2
        test_data (Alloc.ok (fun _ => 0))).bind (fun r1 =>
      (streambuf_h.quicly_ringbuf_push r1.2 test_data (Alloc.ok (fun _ => 0))).map (fun r2 =>
        (r1.1, streambuf_h.quicly_ringbuf_used r1.2,
          r2.1, streambuf_h.quicly_ringbuf_used r2.2)))) = some (0, 128, 0, 128) := by
  decide!

/-- C24 fails on the code (the claim is right, the inline `quicly_ringbuf_grow` is wrong): on the
buffer with storage `[10, 11, 12, 13]`, capacity 4, `start_off = 2`, `end_off = 1` (three bytes
stored: 12, 13, 10) a `quicly_ringbuf_grow` of `include/quicly/streambuf.h` whose allocation
succeeds returns 0 with capacity 8 and `start_off` still 2; `quicly_ringbuf_used` goes from 3 to
7, and the logical byte 2, which was 10, is now the byte at physical position 4, one of the
bytes `realloc` has added. -/
theorem inline_grow_loses_wrapped_data :
    streambuf_h.quicly_ringbuf_used ⟨[10, 11, 12, 13], 4, 2, 1⟩ = 3 ∧
    logical_byte ⟨[10, 11, 12, 13], 4, 2, 1⟩ 2 = some 10 ∧
    streambuf_h.quicly_ringbuf_grow ⟨[10, 11, 12, 13], 4, 2, 1⟩ 1 (Alloc.ok (fun _ => 99)) =
      some (0, ⟨[10, 11, 12, 13, 99, 99, 12, 13], 8, 2, 1⟩) ∧
    streambuf_h.quicly_ringbuf_used ⟨[10, 11, 12, 13, 99, 99, 12, 13], 8, 2, 1⟩ = 7 ∧
    logical_byte ⟨[10, 11, 12, 13, 99, 99, 12, 13], 8, 2, 1⟩ 2 = some 99 := by
  decide

/-! ## Invariant and algebraic properties of `lib/ringbuf.c` -/

/-- C25 fails on the code (the claim is right, the test for growth in the code wraps; it is the
defect of C6): `quicly_ringbuf_init` with `start_size = 4` returns 0 and a buffer on which the
predicate `ring_invariant` (`capacity >= 1`, `start_off < capacity`, `end_off < capacity`,
`used() <= capacity - 1`) holds.  On it `quicly_ringbuf_set` with `off = 2 ^ 64 - 1` and no data
(`len = 0`) computes `off + len + 1 = 0` modulo `2 ^ 64`, asks for no growth, copies nothing,
returns 0 and stores `end_off = 2 ^ 64 - 5`, which is not below the capacity 4: the predicate is
lost by a set that succeeds.  The same happens with `off = 2 ^ 64 - 2` and one byte of data,
where the byte is moreover copied to a place outside the storage, so only the offsets of the
result are stated. -/
theorem set64_breaks_invariant :
    quicly_ringbuf_init ⟨[], 0, 0, 0⟩ 4 (Alloc.ok (fun _ => 0)) = (0, ⟨[0, 0, 0, 0], 4, 0, 0⟩) ∧
    ring_invariant ⟨[0, 0, 0, 0], 4, 0, 0⟩ ∧
    (∀ a, quicly_ringbuf_set64 ⟨[0, 0, 0, 0], 4, 0, 0⟩ (2 ^ 64 - 1) [] a =
      some (0, ⟨[0, 0, 0, 0], 4, 0, 2 ^ 64 - 5⟩)) ∧
    ¬ ring_invariant ⟨[0, 0, 0, 0], 4, 0, 2 ^ 64 - 5⟩ ∧
    ¬ (2 ^ 64 - 5 < 4) ∧
    (∀ a, ∃ b, quicly_ringbuf_set64 ⟨[0, 0, 0, 0], 4, 0, 0⟩ (2 ^ 64 - 2) [99] a = some (0, b) ∧
      b.capacity = 4 ∧ b.start_off = 0 ∧ b.end_off = 2 ^ 64 - 5 ∧ ¬ ring_invariant b) := by
  have h : ∀ a, quicly_ringbuf_set64 ⟨[0, 0, 0, 0], 4, 0, 0⟩ (2 ^ 64 - 2) [99] a =
      some (0, ⟨[0, 0, 0, 0, 99], 4, 0, 2 ^ 64 - 5⟩) := fun a => by rfl
  refine ⟨by decide, by decide, fun a => rfl, by decide!, by decide!, fun a =>
    ⟨⟨[0, 0, 0, 0, 99], 4, 0, 2 ^ 64 - 5⟩, h a, rfl, rfl, rfl, by decide!⟩⟩

/-- C26: on a well-formed buffer with `u = used()`, for byte sequences `xs` and `ys`, the calls
`quicly_ringbuf_set (u + len xs, ys)` then `quicly_ringbuf_set (u, xs)` and the calls
`quicly_ringbuf_push (xs)` then `quicly_ringbuf_push (ys)`, all allocations succeeding, all
return 0 and end with the same `used() = u + len xs + len ys` and the same logical byte at
every position below it. -/
theorem out_of_order_delivery (b : quicly_ringbuf_t) (xs ys : List Nat)
    (f1 f2 f3 f4 : Nat → Nat) (hwf : WellFormed b) :
    ∃ s1 s2 p1 p2,
      quicly_ringbuf_set b (quicly_ringbuf_used b + xs.length) ys (Alloc.ok f1) = some (0, s1) ∧
      quicly_ringbuf_set s1 (quicly_ringbuf_used b) xs (Alloc.ok f2) = some (0, s2) ∧
      quicly_ringbuf_push b xs (Alloc.ok f3) = some (0, p1) ∧
      quicly_ringbuf_push p1 ys (Alloc.ok f4) = some (0, p2) ∧
      quicly_ringbuf_used s2 = quicly_ringbuf_used b + xs.length + ys.length ∧
      quicly_ringbuf_used p2 = quicly_ringbuf_used b + xs.length + ys.length ∧
      ∀ j, j < quicly_ringbuf_used b + xs.length + ys.length →
        s2.data[(s2.start_off + j) % s2.capacity]? = p2.data[(p2.start_off + j) % p2.capacity]? ∧
        (p2.start_off + j) % p2.capacity < p2.data.length := by
  have hne : ∀ f, Alloc.ok f ≠ Alloc.fail := fun f h => Alloc.noConfusion h
  obtain ⟨s1, hs1, hwf1, -, hu1, hw1, hk1⟩ :=
    set_ok b (quicly_ringbuf_used b + xs.length) ys (Alloc.ok f1) hwf (Or.inr (hne f1))
  obtain ⟨s2, hs2, hwf2, -, hu2, hw2, hk2⟩ :=
    set_ok s1 (quicly_ringbuf_used b) xs (Alloc.ok f2) hwf1 (Or.inr (hne f2))
  obtain ⟨p1, hp1, hwfp1, hup1, hwp1, hkp1⟩ := push_ok b xs (Alloc.ok f3) hwf (Or.inr (hne f3))
  obtain ⟨p2, hp2, hwfp2, hup2, hwp2, hkp2⟩ :=
    push_ok p1 ys (Alloc.ok f4) hwfp1 (Or.inr (hne f4))
  have hu1' : quicly_ringbuf_used s1 = quicly_ringbuf_used b + xs.length + ys.length := by
    rw [hu1]; omega
  refine ⟨s1, s2, p1, p2, hs1, hs2, hp1, hp2, by rw [hu2, hu1']; omega, by rw [hup2, hup1],
    ?_⟩
  intro j hj
  refine ⟨?_, logical_byte_lt p2 j hwfp2⟩
  show logical_byte s2 j = logical_byte p2 j
  by_cases h1 : j < quicly_ringbuf_used b
  · rw [hk2 j (by omega) (by omega), hk1 j h1 (by omega), hkp2 j (by omega), hkp1 j h1]
  · by_cases h2 : j < quicly_ringbuf_used b + xs.length
    · have e : j = quicly_ringbuf_used b + (j - quicly_ringbuf_used b) := by omega
      rw [hkp2 j (by omega), e, hw2 _ (by omega), hwp1 _ (by omega)]
    · have e : j = quicly_ringbuf_used b + xs.length +
          (j - (quicly_ringbuf_used b + xs.length)) := by omega
      rw [hk2 j (by omega) (by omega)]
      have e2 : j = quicly_ringbuf_used p1 + (j - (quicly_ringbuf_used b + xs.length)) := by
        rw [hup1]; omega
      rw [e2, hwp2 _ (by omega), hup1, ← e, e, hw1 _ (by omega)]
      congr 1; omega

theorem out_of_order_delivery_witness :
    WellFormed ⟨[10, 11, 12, 13], 4, 2, 1⟩ ∧
    ∃ s1 s2 p1 p2,
      quicly_ringbuf_set ⟨[10, 11, 12, 13], 4, 2, 1⟩
        (quicly_ringbuf_used ⟨[10, 11, 12, 13], 4, 2, 1⟩ + [1, 2].length) [3]
        (Alloc.ok (fun _ => 0)) = some (0, s1) ∧
      quicly_ringbuf_set s1 (quicly_ringbuf_used ⟨[10, 11, 12, 13], 4, 2, 1⟩) [1, 2]
        (Alloc.ok (fun _ => 0)) = some (0, s2) ∧
      quicly_ringbuf_push ⟨[10, 11, 12, 13], 4, 2, 1⟩ [1, 2] (Alloc.ok (fun _ => 0)) =
        some (0, p1) ∧
      quicly_ringbuf_push p1 [3] (Alloc.ok (fun _ => 0)) = some (0, p2) ∧
      quicly_ringbuf_used s2 = quicly_ringbuf_used ⟨[10, 11, 12, 13], 4, 2, 1⟩ + 2 + 1 ∧
      quicly_ringbuf_used p2 = quicly_ringbuf_used ⟨[10, 11, 12, 13], 4, 2, 1⟩ + 2 + 1 ∧
      ∀ j, j < quicly_ringbuf_used ⟨[10, 11, 12, 13], 4, 2, 1⟩ + 2 + 1 →
        s2.data[(s2.start_off + j) % s2.capacity]? = p2.data[(p2.start_off + j) % p2.capacity]? ∧
        (p2.start_off + j) % p2.capacity < p2.data.length :=
  ⟨by decide,
    out_of_order_delivery ⟨[10, 11, 12, 13], 4, 2, 1⟩ [1, 2] [3] (fun _ => 0) (fun _ => 0)
      (fun _ => 0) (fun _ => 0) (by decide)⟩

/-- C27: on a well-formed buffer, `quicly_ringbuf_push (data)` and
`quicly_ringbuf_set (used(), data)` with the same outcome of the allocation give the same
result: the same return code and the same struct (`data`, `capacity`, `start_off`, `end_off`),
or both do not return. -/
theorem push_is_set_at_end (b : quicly_ringbuf_t) (src : List Nat) (a : Alloc)
    (hwf : WellFormed b) :
    quicly_ringbuf_push b src a = quicly_ringbuf_set b (quicly_ringbuf_used b) src a ∧
    ∃ r, quicly_ringbuf_push b src a = some r :=  by
  refine ⟨push_eq_set_all b src a hwf, ?_⟩
  by_cases h : quicly_ringbuf_available b < src.length ∧ a = Alloc.fail
  · obtain ⟨h1, rfl⟩ := h
    exact ⟨_, push_fail b src hwf.2.1 h1⟩
  · have hok : src.length ≤ quicly_ringbuf_available b ∨ a ≠ Alloc.fail := by
      by_cases h1 : quicly_ringbuf_available b < src.length
      · exact Or.inr (fun h2 => h ⟨h1, h2⟩)
      · exact Or.inl (by omega)
    obtain ⟨b', h1, -⟩ := push_ok b src a hwf hok
    exact ⟨_, h1⟩

theorem push_is_set_at_end_witness :
    WellFormed ⟨[10, 11, 12, 13], 4, 2, 1⟩ ∧
    quicly_ringbuf_push ⟨[10, 11, 12, 13], 4, 2, 1⟩ [1, 2] (Alloc.ok (fun _ => 0)) =
      quicly_ringbuf_set ⟨[10, 11, 12, 13], 4, 2, 1⟩
        (quicly_ringbuf_used ⟨[10, 11, 12, 13], 4, 2, 1⟩) [1, 2] (Alloc.ok (fun _ => 0)) ∧
    quicly_ringbuf_push ⟨[10, 11, 12, 13], 4, 2, 1⟩ [1, 2] (Alloc.ok (fun _ => 0)) =
      some (0, ⟨[10, 1, 2, 13, 0, 0, 12, 13], 8, 6, 3⟩) :=
  ⟨by decide,
    (push_is_set_at_end ⟨[10, 11, 12, 13], 4, 2, 1⟩ [1, 2] (Alloc.ok (fun _ => 0))
      (by decide)).1,
    by decide⟩

/-- C28: on a well-formed buffer, for `x + y <= used()`, `quicly_ringbuf_shift (x)` followed by
`quicly_ringbuf_shift (y)` leaves the same struct as `quicly_ringbuf_shift (x + y)`, and
`quicly_ringbuf_shift (0)` leaves the struct as it is. -/
theorem shift_compose (b : quicly_ringbuf_t) (x y : Nat) (hwf : WellFormed b)
    (h : x + y ≤ quicly_ringbuf_used b) :
    quicly_ringbuf_shift (quicly_ringbuf_shift b x) y = quicly_ringbuf_shift b (x + y) ∧
    quicly_ringbuf_shift b 0 = b := by
  have hu := used_lt_capacity b hwf
  obtain ⟨-, hc, hs, he⟩ := hwf
  constructor
  · unfold quicly_ringbuf_shift
    simp only []
    by_cases h1 : b.start_off + x ≥ b.capacity
    · rw [if_pos h1]
      simp only []
      rw [if_neg (by omega), if_pos (by omega)]
      congr 1; omega
    · rw [if_neg h1]
      simp only []
      by_cases h2 : b.start_off + x + y ≥ b.capacity
      · rw [if_pos h2, if_pos (by omega)]
        congr 1; omega
      · rw [if_neg h2, if_neg (by omega)]
        congr 1; omega
  · unfold quicly_ringbuf_shift
    simp only [Nat.add_zero]
    rw [if_neg (by omega)]

theorem shift_compose_witness :
    WellFormed ⟨[10, 11, 12, 13], 4, 2, 1⟩ ∧ 1 + 2 ≤ quicly_ringbuf_used ⟨[10, 11, 12, 13], 4, 2, 1⟩ ∧
    quicly_ringbuf_shift (quicly_ringbuf_shift ⟨[10, 11, 12, 13], 4, 2, 1⟩ 1) 2 =
      quicly_ringbuf_shift ⟨[10, 11, 12, 13], 4, 2, 1⟩ (1 + 2) ∧
    quicly_ringbuf_shift ⟨[10, 11, 12, 13], 4, 2, 1⟩ 0 = ⟨[10, 11, 12, 13], 4, 2, 1⟩ :=
  ⟨by decide, by decide,
    shift_compose ⟨[10, 11, 12, 13], 4, 2, 1⟩ 1 2 (by decide) (by decide)⟩

/-- C29 fails on the code (the claim is right, the comparison in the code wraps): on the
well-formed buffer with storage `[10, 11, 12, 13]`, capacity 4, `start_off = 0`, `end_off = 2`
(two bytes stored), `quicly_ringbuf_emit` with `off = 1` and `len = 2 ^ 64 - 1` computes
`off + len = 0` modulo `2 ^ 64`, takes the branch `off + *len < data_available`, leaves the
length at `2 ^ 64 - 1` with `wrote_all = 0`, and copies the bytes 11, 12, 13, two of them from
outside the stored bytes; `used() - off` is 1. -/
theorem emit64_overflow :
    WellFormed ⟨[10, 11, 12, 13], 4, 0, 2⟩ ∧
    1 ≤ quicly_ringbuf_used ⟨[10, 11, 12, 13], 4, 0, 2⟩ ∧
    quicly_ringbuf_used ⟨[10, 11, 12, 13], 4, 0, 2⟩ - 1 = 1 ∧
    2 ^ 64 - 1 < 2 ^ 64 ∧
    quicly_ringbuf_emit64 ⟨[10, 11, 12, 13], 4, 0, 2⟩ 1 [0, 0, 0, 0] (2 ^ 64 - 1) =
      some { ret := 0, dst := [11, 12, 13, 0], len := 2 ^ 64 - 1, wrote_all := 0 } := by
  decide!

/-! ## The ingress view of `lib/streambuf.c` -/

/-- C30 fails on the code (the claim is right, the branch without clamp is wrong): create a
stream buffer, receive 1000 bytes at offset 0, take the view (1000 bytes) and shift by its
length, receive 100 bytes at offset 0.  The ingress ring has capacity 1024, `start_off = 1000`,
`end_off = 76`, `used() = 100` and `used_one_block() = 24`.  With the transfer not complete and a
tracked length `received.ranges[0].end - data_off = 1100 - 1000 = 100 <= used()`,
`quicly_streambuf_ingress_get` returns the view of base 1000 and length 100, which ends at
1100, beyond the capacity 1024. -/
theorem ingress_view_leaves_storage :
    ((quicly_streambuf_create none 64 64 513 (some ⟨⟨⟨[], 0, 0, 0⟩, 0⟩, ⟨[], 0, 0, 0⟩⟩)
        (Alloc.ok (fun _ => 0)) (Alloc.ok (fun _ => 0))).bind (fun r0 => r0.2.bind (fun s0 =>
      (quicly_streambuf_ingress_receive s0 0 (List.replicate 1000 7) Alloc.fail).bind (fun r1 =>
        (quicly_streambuf_ingress_receive
          (quicly_streambuf_ingress_shift r1.2
            (quicly_streambuf_ingress_get r1.2 false 0 1000).1.len)
          0 (List.replicate 100 8) Alloc.fail).map (fun r2 =>
            ((r0.1, r1.1, r2.1, (quicly_streambuf_ingress_get r1.2 false 0 1000).1.len),
              (r2.2.ingress.capacity, r2.2.ingress.start_off, r2.2.ingress.end_off),
              (streambuf_h.quicly_ringbuf_used r2.2.ingress,
                streambuf_h.quicly_ringbuf_used_one_block r2.2.ingress),
              (quicly_streambuf_ingress_get r2.2 false 1000 1100).1)))))) =
      some ((0, 0, 0, 1000), (1024, 1000, 76), (100, 24), { base := 1000, len := 100 }) ∧
    ¬ (1000 + 100 ≤ 1024) ∧ ¬ (100 ≤ 24) := by
  refine ⟨by decide!, by decide, by decide⟩

/-! ## Termination of the growth of `lib/ringbuf.c` -/

/-- C31 fails on the code (the claim is right, the doubling loop misses the capacity 0): a
`quicly_ringbuf_init` with `start_size = 0` whose `malloc` succeeds returns 0 and leaves a buffer
of capacity 0.  On it the loop `while (new_size - old_size < min_grow_amount) new_size *= 2;`
starts with `new_size = 2 * 0 = 0` and, for `min_grow_amount = 1`, has not left after any number
of evaluations of its condition; so `quicly_ringbuf_grow (1)` does not return, whatever the
allocator would answer, and neither does `quicly_ringbuf_set (0, data)` with one byte, which
calls `quicly_ringbuf_grow (2)`. -/
theorem grow_diverges_at_capacity_zero :
    quicly_ringbuf_init ⟨[], 0, 0, 0⟩ 0 (Alloc.ok (fun _ => 0)) = (0, ⟨[], 0, 0, 0⟩) ∧
    (∀ fuel, grow_new_size fuel 0 (2 * 0) 1 = none) ∧
    (∀ a, quicly_ringbuf_grow ⟨[], 0, 0, 0⟩ 1 a = none) ∧
    (∀ fuel, grow_new_size fuel 0 (2 * 0) 2 = none) ∧
    (∀ a, quicly_ringbuf_set ⟨[], 0, 0, 0⟩ 0 [7] a = none) := by
  refine ⟨rfl, fun fuel => grow_new_size_zero fuel 1 (by decide), ?_,
    fun fuel => grow_new_size_zero fuel 2 (by decide), ?_⟩
  · intro a
    unfold quicly_ringbuf_grow
    simp only [Nat.mul_zero, grow_new_size_zero _ 1 (by decide)]
  · intro a
    unfold quicly_ringbuf_set quicly_ringbuf_grow
    simp [grow_new_size_zero]

end Quicly
